import Mathlib

/-!
Verification of the boundary-matrix reduction core of the Aleph library
(persistent homology): column representations, standard reduction, the
twist optimization, and persistence-pair extraction, together with the
minimum-spanning-tree dimensionality estimator from
`include/aleph/containers/DimensionalityEstimators.hh`.
-/

namespace Aleph

/-- Modelled from the spec: the sorted dynamic-array column representation
(`representations::Vector`, missing from the source slice).  Entries are kept
in strictly increasing order; `add` is the linear-time symmetric-difference
merge of two sorted entry lists (GF(2) addition: an index present in both is
removed, an index present in exactly one is kept). -/
def symDiffMerge : List ℕ → List ℕ → List ℕ
  | [], ys => ys
  | x :: xs, [] => x :: xs
  | x :: xs, y :: ys =>
    if x < y then x :: symDiffMerge xs (y :: ys)
    else if y < x then y :: symDiffMerge (x :: xs) ys
    else symDiffMerge xs ys
termination_by a b => a.length + b.length

/-- Modelled from the spec: `low()` of the sorted-array representation is the
numerically largest entry, i.e. the last element of the ascending list; it is
`none` (the "empty column" signal) on an empty column. -/
def lowV (c : List ℕ) : Option ℕ := c.getLast?

/-- Modelled from the spec: `empty()` of the sorted-array representation. -/
def emptyV (c : List ℕ) : Bool := c.isEmpty

/-- Modelled from the spec: the hash/tree-set column representation, a finite
set of row indices; `add` is set symmetric difference. -/
def addS (s t : Finset ℕ) : Finset ℕ := symmDiff s t

/-- Modelled from the spec: `low()` of the set representation is the maximum
row index present, `none` on the empty set. -/
def lowS (s : Finset ℕ) : Option ℕ :=
  if h : s.Nonempty then some (s.max' h) else none

/-- Modelled from the spec: `empty()` of the set representation. -/
def emptyS (s : Finset ℕ) : Bool := decide (s = ∅)

/-- Modelled from the spec: one GF(2) toggle of the linked-list column
representation: an index already present is removed, an absent one is
prepended. -/
def toggle (c : List ℕ) (e : ℕ) : List ℕ :=
  if e ∈ c then c.erase e else e :: c

/-- Modelled from the spec: `add` of the linked-list representation toggles
each entry of the other column in turn. -/
def addL (c o : List ℕ) : List ℕ := o.foldl toggle c

/-- Modelled from the spec: `low()` of the linked-list representation scans
for the maximum entry; `none` on an empty list. -/
def lowL (c : List ℕ) : Option ℕ :=
  c.foldl (fun acc e =>
    match acc with
    | none => some e
    | some m => some (Max.max m e)) none

/-- Modelled from the spec: `empty()` of the linked-list representation. -/
def emptyL (c : List ℕ) : Bool := c.isEmpty

/-- Modelled from the spec: the capability set every Column Representation
strategy offers to the reduction algorithm: an empty column, GF(2) addition,
the low-index query, and the emptiness test. -/
structure ColumnRep (α : Type) where
  zero : α
  add : α → α → α
  low : α → Option ℕ
  isEmpty : α → Bool

/-- Modelled from the spec: the sorted dynamic-array strategy packaged as a
Column Representation. -/
def vecRep : ColumnRep (List ℕ) := ⟨[], symDiffMerge, lowV, emptyV⟩

/-- Modelled from the spec: the set strategy packaged as a Column
Representation. -/
def setRep : ColumnRep (Finset ℕ) := ⟨∅, addS, lowS, emptyS⟩

/-- Modelled from the spec: the linked-list strategy packaged as a Column
Representation. -/
def lnkRep : ColumnRep (List ℕ) := ⟨[], addL, lowL, emptyL⟩

/-- Modelled from the spec: the inner loop of Standard Reduction on one
column, fuel-indexed: while the column is non-empty and its low value is
already claimed in the pivot map by an earlier column `k`, add column `k`
to it.  `fuel` bounds the number of iterations; the termination theorem
shows a fuel of the matrix dimension suffices. -/
def reduceSteps {α : Type} (R : ColumnRep α) (pivot : List (ℕ × ℕ))
    (cols : List α) : ℕ → α → α
  | 0, c => c
  | fuel + 1, c =>
    match R.low c with
    | none => c
    | some l =>
      match List.lookup l pivot with
      | none => c
      | some k =>
        match cols[k]? with
        | none => c
        | some ck => reduceSteps R pivot cols fuel (R.add c ck)

/-- Modelled from the spec: one outer step of Standard Reduction: reduce
column `j` against the current pivot map, write it back, and record
`pivot[low(column j)] = j` when the reduced column is non-empty and its low
is unclaimed. -/
def reduceStep {α : Type} (R : ColumnRep α) (fuel : ℕ)
    (st : List α × List (ℕ × ℕ)) (j : ℕ) : List α × List (ℕ × ℕ) :=
  match st.1[j]? with
  | none => st
  | some c =>
    let c' := reduceSteps R st.2 st.1 fuel c
    let cols' := st.1.set j c'
    match R.low c' with
    | none => (cols', st.2)
    | some l =>
      match List.lookup l st.2 with
      | none => (cols', (l, j) :: st.2)
      | some _ => (cols', st.2)

/-- Modelled from the spec: Standard Reduction with an explicit fuel bound on
every inner loop, processing columns in ascending filtration order. -/
def standardReduceF {α : Type} (R : ColumnRep α) (fuel : ℕ) (cols : List α) :
    List α × List (ℕ × ℕ) :=
  (List.range cols.length).foldl (reduceStep R fuel) (cols, [])

/-- Modelled from the spec: Standard Reduction; a fuel of the matrix
dimension is enough for every inner loop on well-formed input. -/
def standardReduce {α : Type} (R : ColumnRep α) (cols : List α) :
    List α × List (ℕ × ℕ) :=
  standardReduceF R cols.length cols

/-- Modelled from the spec: one outer step of the Twist optimization: like
`reduceStep`, but when column `j` is found to be a pivot with low `l`, column
`l` is cleared (set empty) immediately. -/
def twistStep {α : Type} (R : ColumnRep α) (fuel : ℕ)
    (st : List α × List (ℕ × ℕ)) (j : ℕ) : List α × List (ℕ × ℕ) :=
  match st.1[j]? with
  | none => st
  | some c =>
    let c' := reduceSteps R st.2 st.1 fuel c
    let cols' := st.1.set j c'
    match R.low c' with
    | none => (cols', st.2)
    | some l =>
      match List.lookup l st.2 with
      | none => (cols'.set l R.zero, (l, j) :: st.2)
      | some _ => (cols', st.2)

/-- Modelled from the spec: the column-processing order of the Twist
optimization: dimensions in decreasing order, and within one dimension the
columns in ascending filtration order. -/
def twistOrder (dims : ℕ → ℕ) (maxd n : ℕ) : List ℕ :=
  ((List.range (maxd + 1)).reverse).foldr
    (fun d acc => ((List.range n).filter (fun j => dims j = d)) ++ acc) []

/-- Modelled from the spec: the Twist optimization with an explicit fuel
bound on every inner loop. -/
def twistReduceF {α : Type} (R : ColumnRep α) (fuel : ℕ) (dims : ℕ → ℕ)
    (maxd : ℕ) (cols : List α) : List α × List (ℕ × ℕ) :=
  (twistOrder dims maxd cols.length).foldl (twistStep R fuel) (cols, [])

/-- Modelled from the spec: the Twist optimization of the reduction. -/
def twistReduce {α : Type} (R : ColumnRep α) (dims : ℕ → ℕ) (maxd : ℕ)
    (cols : List α) : List α × List (ℕ × ℕ) :=
  twistReduceF R cols.length dims maxd cols

/-- Modelled from the spec: a persistence pair: a birth index, a death index
(`none` meaning `⊥`, an essential class), and the homological dimension. -/
structure PersPair where
  birth : ℕ
  death : Option ℕ
  dim : ℕ
deriving DecidableEq

/-- Modelled from the spec: insertion into a birth-sorted pair list, used to
emit pairs in ascending birth order. -/
def insertByBirth (p : PersPair) : List PersPair → List PersPair
  | [] => [p]
  | q :: qs => if p.birth ≤ q.birth then p :: q :: qs else q :: insertByBirth p qs

/-- Modelled from the spec: the stable ascending-birth ordering of the
emitted pairs. -/
def sortByBirth (l : List PersPair) : List PersPair := l.foldr insertByBirth []

/-- Modelled from the spec: persistence-pair extraction: every pivot entry
`(low, j)` yields a finite pair `(low, j, dimension low)`; every index whose
column is empty and which never appears as a low value in the pivot map
yields an essential pair; pairs are emitted in ascending birth order. -/
def extractPairs {α : Type} (R : ColumnRep α) (dims : ℕ → ℕ) (cols : List α)
    (pivot : List (ℕ × ℕ)) : List PersPair :=
  let finite := pivot.map (fun lj => ⟨lj.1, some lj.2, dims lj.1⟩)
  let keys := pivot.map Prod.fst
  let essential := (List.range cols.length).filterMap (fun i =>
    match cols[i]? with
    | none => none
    | some c =>
      if R.isEmpty c && !(keys.contains i) then some ⟨i, none, dims i⟩
      else none)
  sortByBirth (finite ++ essential)

/-- Modelled from the spec: the whole pipeline `computePersistencePairs`:
reduce the boundary matrix with Standard Reduction, then extract the pairs
from the pivot map and the reduced columns. -/
def computePersistencePairs {α : Type} (R : ColumnRep α) (dims : ℕ → ℕ)
    (cols : List α) : List PersPair × List α × List (ℕ × ℕ) :=
  let mp := standardReduce R cols
  (extractPairs R dims mp.1 mp.2, mp.1, mp.2)

/-- A sorted-array column's representation invariant: entries strictly
increasing. -/
def sortedCol (c : List ℕ) : Prop := List.Sorted (· < ·) c

instance (c : List ℕ) : Decidable (sortedCol c) :=
  inferInstanceAs (Decidable (List.Sorted (· < ·) c))

/-- Well-formedness of a boundary matrix over the set representation: column
`j` only references rows strictly below `j`. -/
def wfSet (cols : List (Finset ℕ)) : Prop :=
  ∀ j (h : j < cols.length), ∀ i ∈ cols.get ⟨j, h⟩, i < j

instance (cols : List (Finset ℕ)) : Decidable (wfSet cols) :=
  inferInstanceAs
    (Decidable (∀ j (h : j < cols.length), ∀ i ∈ cols.get ⟨j, h⟩, i < j))

/-- Well-formedness of a boundary matrix over a list-backed representation:
column `j` only references rows strictly below `j`. -/
def wfVec (cols : List (List ℕ)) : Prop :=
  ∀ j (h : j < cols.length), ∀ i ∈ cols.get ⟨j, h⟩, i < j

instance (cols : List (List ℕ)) : Decidable (wfVec cols) :=
  inferInstanceAs
    (Decidable (∀ j (h : j < cols.length), ∀ i ∈ cols.get ⟨j, h⟩, i < j))

/-- A fuel bound for the inner reduction loop: one more than the current low,
zero for an empty column. -/
def lowBnd (s : Finset ℕ) : ℕ :=
  (lowS s).elim 0 (fun l => l + 1)

theorem lowBnd_of_none (s : Finset ℕ) (h : lowS s = none) : lowBnd s = 0 := by
  unfold lowBnd
  rw [h]
  rfl

theorem lowBnd_of_some (s : Finset ℕ) (l : ℕ) (h : lowS s = some l) :
    lowBnd s = l + 1 := by
  unfold lowBnd
  rw [h]
  rfl

theorem lowS_none_iff (s : Finset ℕ) : lowS s = none ↔ s = ∅ := by
  unfold lowS
  split
  · next h => simp [Finset.nonempty_iff_ne_empty.mp h]
  · next h =>
    simp only [Finset.not_nonempty_iff_eq_empty] at h
    simp [h]

theorem lowS_some_iff (s : Finset ℕ) (l : ℕ) :
    lowS s = some l ↔ l ∈ s ∧ ∀ i ∈ s, i ≤ l := by
  unfold lowS
  split
  · next h =>
    constructor
    · rintro ⟨rfl⟩
      exact ⟨s.max'_mem h, fun i hi => s.le_max' i hi⟩
    · rintro ⟨hl, hub⟩
      have h1 : s.max' h ≤ l := hub _ (s.max'_mem h)
      have h2 : l ≤ s.max' h := s.le_max' l hl
      simp [le_antisymm h1 h2]
  · next h =>
    simp only [Finset.not_nonempty_iff_eq_empty] at h
    subst h
    simp

theorem lowS_isSome (s : Finset ℕ) (hs : s ≠ ∅) : ∃ l, lowS s = some l := by
  rcases hl : lowS s with _ | l
  · exact absurd ((lowS_none_iff s).mp hl) hs
  · exact ⟨l, rfl⟩

theorem mem_addS (s t : Finset ℕ) (i : ℕ) :
    i ∈ addS s t ↔ (i ∈ s ∧ i ∉ t) ∨ (i ∈ t ∧ i ∉ s) := by
  unfold addS
  exact Finset.mem_symmDiff

/-- Each reduction add against a column sharing the same low strictly
decreases the available fuel bound: every surviving index is strictly below
the old low. -/
theorem lowBnd_addS_le (a b : Finset ℕ) (l : ℕ)
    (ha : lowS a = some l) (hb : lowS b = some l) :
    lowBnd (addS a b) ≤ l := by
  rcases (lowS_some_iff a l).mp ha with ⟨hla, hua⟩
  rcases (lowS_some_iff b l).mp hb with ⟨hlb, hub⟩
  rcases hd : lowS (addS a b) with _ | m
  · have hz : lowBnd (addS a b) = 0 := lowBnd_of_none _ hd
    omega
  · have hz : lowBnd (addS a b) = m + 1 := lowBnd_of_some _ _ hd
    rcases (lowS_some_iff _ m).mp hd with ⟨hm, _⟩
    rcases (mem_addS a b m).mp hm with ⟨hin, hout⟩ | ⟨hin, hout⟩
    · have h1 : m ≤ l := hua m hin
      have h2 : m ≠ l := fun he => hout (he ▸ hlb)
      omega
    · have h1 : m ≤ l := hub m hin
      have h2 : m ≠ l := fun he => hout (he ▸ hla)
      omega

theorem mem_of_mem_addS (s t : Finset ℕ) (i : ℕ) (h : i ∈ addS s t) :
    i ∈ s ∨ i ∈ t := by
  rcases (mem_addS s t i).mp h with ⟨h1, _⟩ | ⟨h1, _⟩
  · exact Or.inl h1
  · exact Or.inr h1

theorem lookup_mem {β : Type} (l : ℕ) (k : β) (ps : List (ℕ × β))
    (h : List.lookup l ps = some k) : (l, k) ∈ ps := by
  induction ps with
  | nil => simp [List.lookup] at h
  | cons p ps ih =>
    rw [List.lookup] at h
    rcases hb : (l == p.1) with _ | _
    · rw [hb] at h
      exact List.mem_cons_of_mem _ (ih h)
    · rw [hb] at h
      have he : l = p.1 := by
        simpa using hb
      cases h
      simp [he]

theorem lookup_eq_none_iff {β : Type} (l : ℕ) (ps : List (ℕ × β)) :
    List.lookup l ps = none ↔ l ∉ ps.map Prod.fst := by
  induction ps with
  | nil => simp [List.lookup]
  | cons p ps ih =>
    rw [List.lookup]
    rcases hb : (l == p.1) with _ | _
    · have hne : l ≠ p.1 := by
        simpa using hb
      simp [hne, ih]
    · have he : l = p.1 := by
        simpa using hb
      simp [he]

theorem setRep_zero : setRep.zero = (∅ : Finset ℕ) := rfl

theorem setRep_add : setRep.add = addS := rfl

theorem setRep_low : setRep.low = lowS := rfl

theorem setRep_isEmpty : setRep.isEmpty = emptyS := rfl

/-- The column a list of columns holds at index `k`, defaulting to the empty
column out of range. -/
def colAt (cols : List (Finset ℕ)) (k : ℕ) : Finset ℕ := (cols[k]?).getD ∅

theorem colAt_of_lt (cols : List (Finset ℕ)) (k : ℕ) (h : k < cols.length) :
    cols[k]? = some (colAt cols k) := by
  unfold colAt
  rw [List.getElem?_eq_getElem h]
  rfl

theorem colAt_set_self (cols : List (Finset ℕ)) (j : ℕ) (c : Finset ℕ)
    (h : j < cols.length) : colAt (cols.set j c) j = c := by
  unfold colAt
  rw [List.getElem?_set_self]
  · simp [h]
  · exact h

theorem colAt_set_ne (cols : List (Finset ℕ)) (j k : ℕ) (c : Finset ℕ)
    (h : k ≠ j) : colAt (cols.set j c) k = colAt cols k := by
  unfold colAt
  rw [List.getElem?_set_ne (fun he => h he.symm)]

/-- Soundness of a pivot map with respect to a column list: every recorded
entry points at a column whose low really is the recorded key. -/
def pivotGood (pivot : List (ℕ × ℕ)) (cols : List (Finset ℕ)) : Prop :=
  ∀ lk ∈ pivot, lowS (colAt cols lk.2) = some lk.1

/-- The inner loop leaves an empty column untouched. -/
theorem reduceSteps_of_low_none {α : Type} (R : ColumnRep α)
    (pivot : List (ℕ × ℕ)) (cols : List α) (fuel : ℕ) (c : α)
    (h : R.low c = none) : reduceSteps R pivot cols fuel c = c := by
  cases fuel with
  | zero => rfl
  | succ f =>
    rw [reduceSteps, h]

/-- The inner loop leaves a column whose low is unclaimed untouched. -/
theorem reduceSteps_of_lookup_none {α : Type} (R : ColumnRep α)
    (pivot : List (ℕ × ℕ)) (cols : List α) (fuel : ℕ) (c : α) (l : ℕ)
    (h : R.low c = some l) (hl : List.lookup l pivot = none) :
    reduceSteps R pivot cols fuel c = c := by
  cases fuel with
  | zero => rfl
  | succ f =>
    simp only [reduceSteps, h, hl]

/-- Unfolding of one genuine iteration of the inner loop: a claimed low leads
to one add followed by the rest of the loop. -/
theorem reduceSteps_succ_step {α : Type} (R : ColumnRep α)
    (pivot : List (ℕ × ℕ)) (cols : List α) (f : ℕ) (c : α) (l k : ℕ) (ck : α)
    (h : R.low c = some l) (hlk : List.lookup l pivot = some k)
    (hck : cols[k]? = some ck) :
    reduceSteps R pivot cols (f + 1) c =
      reduceSteps R pivot cols f (R.add c ck) := by
  simp only [reduceSteps, h, hlk, hck]

/-- A sound pivot map locates an actual column for every entry. -/
theorem pivotGood_col (pivot : List (ℕ × ℕ)) (cols : List (Finset ℕ))
    (hpg : pivotGood pivot cols) (l k : ℕ) (hmem : (l, k) ∈ pivot) :
    cols[k]? = some (colAt cols k) ∧ lowS (colAt cols k) = some l := by
  have hck : lowS (colAt cols k) = some l := hpg (l, k) hmem
  rcases hsk : cols[k]? with _ | ck
  · exfalso
    have he : colAt cols k = ∅ := by
      unfold colAt
      rw [hsk]
      rfl
    rw [he, (lowS_none_iff ∅).mpr rfl] at hck
    cases hck
  · have he : colAt cols k = ck := by
      unfold colAt
      rw [hsk]
      rfl
    exact ⟨by rw [he], hck⟩

/-- Inner-loop postcondition: with fuel at least the current low bound and a
sound pivot map, the resulting column is empty or its low is unclaimed in the
pivot map.  This is the fixpoint the while loop of Standard Reduction runs
to. -/
theorem reduceSteps_done (pivot : List (ℕ × ℕ)) (cols : List (Finset ℕ))
    (hpg : pivotGood pivot cols) :
    ∀ fuel c, lowBnd c ≤ fuel →
      ∀ l, lowS (reduceSteps setRep pivot cols fuel c) = some l →
        List.lookup l pivot = none := by
  intro fuel
  induction fuel with
  | zero =>
    intro c hb l hl
    rw [reduceSteps] at hl
    rw [lowBnd_of_some _ _ hl] at hb
    omega
  | succ f ih =>
    intro c hb l hl
    rcases h : lowS c with _ | m
    · rw [reduceSteps_of_low_none setRep pivot cols (f + 1) c h] at hl
      rw [h] at hl
      cases hl
    · rcases hlk : List.lookup m pivot with _ | k
      · rw [reduceSteps_of_lookup_none setRep pivot cols (f + 1) c m h hlk] at hl
        rw [h] at hl
        cases hl
        exact hlk
      · have hmem : (m, k) ∈ pivot := lookup_mem m k pivot hlk
        obtain ⟨hsk, hck⟩ := pivotGood_col pivot cols hpg m k hmem
        rw [reduceSteps_succ_step setRep pivot cols f c m k (colAt cols k) h hlk hsk] at hl
        have hdec : lowBnd (addS c (colAt cols k)) ≤ m :=
          lowBnd_addS_le c (colAt cols k) m h hck
        have hmb : lowBnd c = m + 1 := lowBnd_of_some _ _ h
        exact ih (setRep.add c (colAt cols k)) (by rw [setRep_add]; omega) l hl

/-- The inner loop is inert when the claimed pivot column is out of range. -/
theorem reduceSteps_of_col_none {α : Type} (R : ColumnRep α)
    (pivot : List (ℕ × ℕ)) (cols : List α) (fuel : ℕ) (c : α) (l k : ℕ)
    (h : R.low c = some l) (hlk : List.lookup l pivot = some k)
    (hck : cols[k]? = none) : reduceSteps R pivot cols fuel c = c := by
  cases fuel with
  | zero => rfl
  | succ f => simp only [reduceSteps, h, hlk, hck]

/-- Any fuel above the low bound computes the same inner-loop result: the
loop has already reached its fixpoint. -/
theorem reduceSteps_fuel_stable (pivot : List (ℕ × ℕ))
    (cols : List (Finset ℕ)) (hpg : pivotGood pivot cols) :
    ∀ fuel c, lowBnd c ≤ fuel → ∀ m,
      reduceSteps setRep pivot cols (fuel + m) c =
        reduceSteps setRep pivot cols fuel c := by
  intro fuel
  induction fuel with
  | zero =>
    intro c hb m
    rcases h : lowS c with _ | l
    · rw [reduceSteps_of_low_none setRep pivot cols (0 + m) c h]
      rw [reduceSteps]
    · rw [lowBnd_of_some _ _ h] at hb
      omega
  | succ f ih =>
    intro c hb m
    rcases h : lowS c with _ | l
    · rw [reduceSteps_of_low_none setRep pivot cols (f + 1 + m) c h,
        reduceSteps_of_low_none setRep pivot cols (f + 1) c h]
    · rcases hlk : List.lookup l pivot with _ | k
      · rw [reduceSteps_of_lookup_none setRep pivot cols (f + 1 + m) c l h hlk,
          reduceSteps_of_lookup_none setRep pivot cols (f + 1) c l h hlk]
      · obtain ⟨hsk, hck⟩ :=
          pivotGood_col pivot cols hpg l k (lookup_mem l k pivot hlk)
        have hstep : f + 1 + m = (f + m) + 1 := by omega
        rw [hstep]
        rw [reduceSteps_succ_step setRep pivot cols (f + m) c l k
          (colAt cols k) h hlk hsk]
        rw [reduceSteps_succ_step setRep pivot cols f c l k
          (colAt cols k) h hlk hsk]
        have hdec : lowBnd (addS c (colAt cols k)) ≤ l :=
          lowBnd_addS_le c (colAt cols k) l h hck
        have hmb : lowBnd c = l + 1 := lowBnd_of_some _ _ h
        exact ih (setRep.add c (colAt cols k)) (by rw [setRep_add]; omega) m

/-- Every index surviving the inner loop already occurred in the column or in
one of the pivot columns added to it; in particular row bounds are
preserved. -/
theorem reduceSteps_mem (pivot : List (ℕ × ℕ)) (cols : List (Finset ℕ))
    (j : ℕ) (hcb : ∀ lk ∈ pivot, ∀ i ∈ colAt cols lk.2, i < j) :
    ∀ fuel c, (∀ i ∈ c, i < j) →
      ∀ i ∈ reduceSteps setRep pivot cols fuel c, i < j := by
  intro fuel
  induction fuel with
  | zero =>
    intro c hc i hi
    rw [reduceSteps] at hi
    exact hc i hi
  | succ f ih =>
    intro c hc i hi
    rcases h : lowS c with _ | l
    · rw [reduceSteps_of_low_none setRep pivot cols (f + 1) c h] at hi
      exact hc i hi
    · rcases hlk : List.lookup l pivot with _ | k
      · rw [reduceSteps_of_lookup_none setRep pivot cols (f + 1) c l h hlk] at hi
        exact hc i hi
      · rcases hsk : cols[k]? with _ | ck
        · rw [reduceSteps_of_col_none setRep pivot cols (f + 1) c l k h hlk hsk] at hi
          exact hc i hi
        · rw [reduceSteps_succ_step setRep pivot cols f c l k ck h hlk hsk] at hi
          have hckm : colAt cols k = ck := by
            unfold colAt
            rw [hsk]
            rfl
          have hcadd : ∀ i ∈ setRep.add c ck, i < j := by
            intro i hi'
            rw [setRep_add] at hi'
            rcases mem_of_mem_addS c ck i hi' with hin | hin
            · exact hc i hin
            · exact hcb (l, k) (lookup_mem l k pivot hlk) i (by rw [hckm]; exact hin)
          exact ih (setRep.add c ck) hcadd i hi

/-- The pivot map Standard Reduction has accumulated after processing the
first `j` columns of an (already reduced) column list: one entry per
non-empty column, latest first. -/
def pivotOf (cols : List (Finset ℕ)) (j : ℕ) : List (ℕ × ℕ) :=
  (List.range j).foldl (fun acc k =>
    match lowS (colAt cols k) with
    | none => acc
    | some l => (l, k) :: acc) []

theorem pivotOf_succ_none (cols : List (Finset ℕ)) (j : ℕ)
    (h : lowS (colAt cols j) = none) :
    pivotOf cols (j + 1) = pivotOf cols j := by
  unfold pivotOf
  rw [List.range_succ, List.foldl_append]
  simp only [List.foldl_cons, List.foldl_nil, h]

theorem pivotOf_succ_some (cols : List (Finset ℕ)) (j l : ℕ)
    (h : lowS (colAt cols j) = some l) :
    pivotOf cols (j + 1) = (l, j) :: pivotOf cols j := by
  unfold pivotOf
  rw [List.range_succ, List.foldl_append]
  simp only [List.foldl_cons, List.foldl_nil, h]

theorem pivotOf_set_ge (cols : List (Finset ℕ)) (j m : ℕ) (c : Finset ℕ)
    (h : j ≤ m) : pivotOf (cols.set m c) j = pivotOf cols j := by
  unfold pivotOf
  apply List.foldl_ext
  intro acc k hk
  have hkm : k ≠ m := by
    have : k < j := List.mem_range.mp hk
    omega
  rw [colAt_set_ne cols m k c hkm]

/-- The state invariant of Standard Reduction over the set representation,
after the first `j` columns have been processed: lengths agree, every column
only holds rows below its own index, every pivot entry records the actual low
of an already processed column, pivot keys are pairwise distinct, the columns
from `j` on are untouched, and the pivot list is exactly determined by the
processed columns. -/
structure RInv (orig : List (Finset ℕ)) (j : ℕ)
    (st : List (Finset ℕ) × List (ℕ × ℕ)) : Prop where
  len : st.1.length = orig.length
  bound : ∀ k, ∀ i ∈ colAt st.1 k, i < k
  pcols : ∀ lk ∈ st.2, lk.2 < j ∧ lowS (colAt st.1 lk.2) = some lk.1
  keysNd : (st.2.map Prod.fst).Nodup
  untouched : ∀ k, j ≤ k → colAt st.1 k = colAt orig k
  chr : st.2 = pivotOf st.1 j

theorem reduceStep_eq_of_none {α : Type} (R : ColumnRep α) (fuel : ℕ)
    (st : List α × List (ℕ × ℕ)) (j : ℕ) (c : α) (hcj : st.1[j]? = some c)
    (hlc : R.low (reduceSteps R st.2 st.1 fuel c) = none) :
    reduceStep R fuel st j = (st.1.set j (reduceSteps R st.2 st.1 fuel c), st.2) := by
  simp only [reduceStep, hcj, hlc]

theorem reduceStep_eq_of_new {α : Type} (R : ColumnRep α) (fuel : ℕ)
    (st : List α × List (ℕ × ℕ)) (j : ℕ) (c : α) (l : ℕ)
    (hcj : st.1[j]? = some c)
    (hlc : R.low (reduceSteps R st.2 st.1 fuel c) = some l)
    (hlk : List.lookup l st.2 = none) :
    reduceStep R fuel st j =
      (st.1.set j (reduceSteps R st.2 st.1 fuel c), (l, j) :: st.2) := by
  simp only [reduceStep, hcj, hlc, hlk]

theorem reduceStep_eq_of_old {α : Type} (R : ColumnRep α) (fuel : ℕ)
    (st : List α × List (ℕ × ℕ)) (j : ℕ) (c : α) (l k : ℕ)
    (hcj : st.1[j]? = some c)
    (hlc : R.low (reduceSteps R st.2 st.1 fuel c) = some l)
    (hlk : List.lookup l st.2 = some k) :
    reduceStep R fuel st j =
      (st.1.set j (reduceSteps R st.2 st.1 fuel c), st.2) := by
  simp only [reduceStep, hcj, hlc, hlk]

/-- Processing one more column preserves the reduction invariant. -/
theorem reduceStep_inv (orig : List (Finset ℕ)) (fuel j : ℕ)
    (st : List (Finset ℕ) × List (ℕ × ℕ)) (hInv : RInv orig j st)
    (hj : j < orig.length) (hfuel : orig.length ≤ fuel) :
    RInv orig (j + 1) (reduceStep setRep fuel st j) := by
  obtain ⟨cols, pivot⟩ := st
  have hlen : cols.length = orig.length := hInv.len
  have hjc : j < cols.length := by omega
  have hcj : cols[j]? = some (colAt cols j) := colAt_of_lt _ _ hjc
  have hpg : pivotGood pivot cols := fun lk h => (hInv.pcols lk h).2
  have hboundj : ∀ i ∈ colAt cols j, i < j := hInv.bound j
  have hcb : ∀ lk ∈ pivot, ∀ i ∈ colAt cols lk.2, i < j := by
    intro lk h i hi
    exact lt_trans (hInv.bound lk.2 i hi) (hInv.pcols lk h).1
  have hfuelc : lowBnd (colAt cols j) ≤ fuel := by
    rcases h : lowS (colAt cols j) with _ | l
    · rw [lowBnd_of_none _ h]
      omega
    · rw [lowBnd_of_some _ _ h]
      have : l ∈ colAt cols j := ((lowS_some_iff _ l).mp h).1
      have : l < j := hboundj l this
      omega
  have hmem' : ∀ i ∈ reduceSteps setRep pivot cols fuel (colAt cols j), i < j :=
    reduceSteps_mem pivot cols j hcb fuel (colAt cols j) hboundj
  have hdone : ∀ l,
      lowS (reduceSteps setRep pivot cols fuel (colAt cols j)) = some l →
      List.lookup l pivot = none :=
    reduceSteps_done pivot cols hpg fuel (colAt cols j) hfuelc
  rcases hlc : lowS (reduceSteps setRep pivot cols fuel (colAt cols j)) with _ | l
  · rw [reduceStep_eq_of_none setRep fuel (cols, pivot) j (colAt cols j) hcj hlc]
    refine ⟨?_, ?_, ?_, ?_, ?_, ?_⟩
    · simpa using hlen
    · intro k i hi
      by_cases hk : k = j
      · subst hk
        rw [colAt_set_self cols k _ hjc] at hi
        exact hmem' i hi
      · rw [colAt_set_ne cols j k _ hk] at hi
        exact hInv.bound k i hi
    · intro lk h
      obtain ⟨h1, h2⟩ := hInv.pcols lk h
      refine ⟨Nat.lt_succ_of_lt h1, ?_⟩
      rw [colAt_set_ne cols j lk.2 _ (Nat.ne_of_lt h1)]
      exact h2
    · exact hInv.keysNd
    · intro k hk
      rw [colAt_set_ne cols j k _ (by omega)]
      exact hInv.untouched k (by omega)
    · have hset : lowS (colAt (cols.set j
          (reduceSteps setRep pivot cols fuel (colAt cols j))) j) = none := by
        rw [colAt_set_self cols j _ hjc]
        exact hlc
      rw [pivotOf_succ_none _ j hset, pivotOf_set_ge cols j j _ (le_refl j)]
      exact hInv.chr
  · have hlkp : List.lookup l pivot = none := hdone l hlc
    rw [reduceStep_eq_of_new setRep fuel (cols, pivot) j (colAt cols j) l hcj hlc hlkp]
    refine ⟨?_, ?_, ?_, ?_, ?_, ?_⟩
    · simpa using hlen
    · intro k i hi
      by_cases hk : k = j
      · subst hk
        rw [colAt_set_self cols k _ hjc] at hi
        exact hmem' i hi
      · rw [colAt_set_ne cols j k _ hk] at hi
        exact hInv.bound k i hi
    · intro lk h
      rcases List.mem_cons.mp h with he | hm
      · subst he
        refine ⟨Nat.lt_succ_self j, ?_⟩
        rw [colAt_set_self cols j _ hjc]
        exact hlc
      · obtain ⟨h1, h2⟩ := hInv.pcols lk hm
        refine ⟨Nat.lt_succ_of_lt h1, ?_⟩
        rw [colAt_set_ne cols j lk.2 _ (Nat.ne_of_lt h1)]
        exact h2
    · simp only [List.map_cons, List.nodup_cons]
      exact ⟨(lookup_eq_none_iff l pivot).mp hlkp, hInv.keysNd⟩
    · intro k hk
      rw [colAt_set_ne cols j k _ (by omega)]
      exact hInv.untouched k (by omega)
    · have hset : lowS (colAt (cols.set j
          (reduceSteps setRep pivot cols fuel (colAt cols j))) j) = some l := by
        rw [colAt_set_self cols j _ hjc]
        exact hlc
      rw [pivotOf_succ_some _ j l hset, pivotOf_set_ge cols j j _ (le_refl j)]
      rw [← hInv.chr]

/-- The state of Standard Reduction after processing the first `j` columns. -/
def runStd (fuel : ℕ) (orig : List (Finset ℕ)) (j : ℕ) :
    List (Finset ℕ) × List (ℕ × ℕ) :=
  (List.range j).foldl (reduceStep setRep fuel) (orig, [])

theorem runStd_succ (fuel : ℕ) (orig : List (Finset ℕ)) (j : ℕ) :
    runStd fuel orig (j + 1) = reduceStep setRep fuel (runStd fuel orig j) j := by
  unfold runStd
  rw [List.range_succ, List.foldl_append]
  rfl

theorem runStd_inv (orig : List (Finset ℕ))
    (horig : ∀ k, ∀ i ∈ colAt orig k, i < k) (fuel : ℕ)
    (hfuel : orig.length ≤ fuel) :
    ∀ j, j ≤ orig.length → RInv orig j (runStd fuel orig j) := by
  intro j
  induction j with
  | zero =>
    intro _
    exact ⟨rfl, horig, by simp [runStd], by simp [runStd], fun k _ => rfl, rfl⟩
  | succ j ih =>
    intro hj
    rw [runStd_succ]
    exact reduceStep_inv orig fuel j _ (ih (by omega)) (by omega) hfuel

theorem standardReduceF_eq_runStd (fuel : ℕ) (cols : List (Finset ℕ)) :
    standardReduceF setRep fuel cols = runStd fuel cols cols.length := rfl

/-- The reduction invariant holds of the final state of Standard Reduction
over the set representation. -/
theorem standardReduce_inv (cols : List (Finset ℕ))
    (horig : ∀ k, ∀ i ∈ colAt cols k, i < k) :
    RInv cols cols.length (standardReduce setRep cols) := by
  rw [standardReduce, standardReduceF_eq_runStd]
  exact runStd_inv cols horig cols.length (le_refl _) cols.length (le_refl _)

theorem reduceStep_congr {α : Type} (R : ColumnRep α) (f1 f2 : ℕ)
    (st : List α × List (ℕ × ℕ)) (j : ℕ)
    (h : ∀ c, st.1[j]? = some c →
      reduceSteps R st.2 st.1 f1 c = reduceSteps R st.2 st.1 f2 c) :
    reduceStep R f1 st j = reduceStep R f2 st j := by
  rcases hcj : st.1[j]? with _ | c
  · simp only [reduceStep, hcj]
  · simp only [reduceStep, hcj, h c hcj]

/-- Raising the fuel beyond the matrix dimension never changes the result of
Standard Reduction on well-formed input: every inner loop has terminated
within `n` iterations. -/
theorem runStd_fuel_stable (orig : List (Finset ℕ))
    (horig : ∀ k, ∀ i ∈ colAt orig k, i < k) (m : ℕ) :
    ∀ j, j ≤ orig.length →
      runStd (orig.length + m) orig j = runStd orig.length orig j := by
  intro j
  induction j with
  | zero =>
    intro _
    rfl
  | succ j ih =>
    intro hj
    rw [runStd_succ, runStd_succ, ih (by omega)]
    have hInv : RInv orig j (runStd orig.length orig j) :=
      runStd_inv orig horig orig.length (le_refl _) j (by omega)
    apply reduceStep_congr
    intro c hcj
    have hc : colAt (runStd orig.length orig j).1 j = c := by
      unfold colAt
      rw [hcj]
      rfl
    have hpg : pivotGood (runStd orig.length orig j).2 (runStd orig.length orig j).1 :=
      fun lk h => (hInv.pcols lk h).2
    have hb : lowBnd c ≤ orig.length := by
      rcases h : lowS c with _ | l
      · rw [lowBnd_of_none _ h]
        omega
      · have hl : l ∈ c := ((lowS_some_iff _ l).mp h).1
        have hlj : l < j := hInv.bound j l (by rw [hc]; exact hl)
        rw [lowBnd_of_some _ _ h]
        omega
    exact reduceSteps_fuel_stable _ _ hpg orig.length c hb m

/-- The `get`-phrased well-formedness predicate gives the `colAt`-phrased row
bound. -/
theorem wfSet_colAt (cols : List (Finset ℕ)) (h : wfSet cols) :
    ∀ k, ∀ i ∈ colAt cols k, i < k := by
  intro k i hi
  by_cases hk : k < cols.length
  · have hg : colAt cols k = cols.get ⟨k, hk⟩ := by
      unfold colAt
      rw [List.get_eq_getElem, List.getElem?_eq_getElem hk]
      rfl
    exact h k hk i (by rw [← hg]; exact hi)
  · exfalso
    have : colAt cols k = ∅ := by
      unfold colAt
      rw [List.getElem?_eq_none (by omega)]
      rfl
    rw [this] at hi
    exact absurd hi (Finset.not_mem_empty i)

/-- A simulation between a concrete Column Representation strategy and the
abstract set representation: an invariant the strategy maintains and an
abstraction to the set of stored row indices, commuting with all four
capabilities. -/
structure RepSim (α : Type) (R : ColumnRep α) where
  Inv : α → Prop
  abs : α → Finset ℕ
  inv_zero : Inv R.zero
  abs_zero : abs R.zero = ∅
  inv_add : ∀ a b, Inv a → Inv b → Inv (R.add a b)
  abs_add : ∀ a b, Inv a → Inv b → abs (R.add a b) = addS (abs a) (abs b)
  low_abs : ∀ a, Inv a → R.low a = lowS (abs a)
  isEmpty_abs : ∀ a, Inv a → R.isEmpty a = emptyS (abs a)

/-- The inner loop commutes with the abstraction of a simulated
representation. -/
theorem RepSim.reduceSteps_abs {α : Type} {R : ColumnRep α} (S : RepSim α R)
    (pivot : List (ℕ × ℕ)) (cols : List α) (hcols : ∀ c ∈ cols, S.Inv c) :
    ∀ fuel c, S.Inv c →
      S.Inv (reduceSteps R pivot cols fuel c) ∧
      S.abs (reduceSteps R pivot cols fuel c) =
        reduceSteps setRep pivot (cols.map S.abs) fuel (S.abs c) := by
  intro fuel
  induction fuel with
  | zero =>
    intro c hc
    rw [reduceSteps, reduceSteps]
    exact ⟨hc, rfl⟩
  | succ f ih =>
    intro c hc
    have hlow : R.low c = lowS (S.abs c) := S.low_abs c hc
    rcases h : R.low c with _ | l
    · rw [reduceSteps_of_low_none R pivot cols (f + 1) c h,
        reduceSteps_of_low_none setRep pivot (cols.map S.abs) (f + 1) (S.abs c)
          (by rw [setRep_low, ← hlow]; exact h)]
      exact ⟨hc, rfl⟩
    · have habsl : lowS (S.abs c) = some l := by rw [← hlow]; exact h
      rcases hlk : List.lookup l pivot with _ | k
      · rw [reduceSteps_of_lookup_none R pivot cols (f + 1) c l h hlk,
          reduceSteps_of_lookup_none setRep pivot (cols.map S.abs) (f + 1)
            (S.abs c) l (by rw [setRep_low]; exact habsl) hlk]
        exact ⟨hc, rfl⟩
      · rcases hsk : cols[k]? with _ | ck
        · have hskm : (cols.map S.abs)[k]? = none := by
            rw [List.getElem?_map, hsk]
            rfl
          rw [reduceSteps_of_col_none R pivot cols (f + 1) c l k h hlk hsk,
            reduceSteps_of_col_none setRep pivot (cols.map S.abs) (f + 1)
              (S.abs c) l k (by rw [setRep_low]; exact habsl) hlk hskm]
          exact ⟨hc, rfl⟩
        · have hskm : (cols.map S.abs)[k]? = some (S.abs ck) := by
            rw [List.getElem?_map, hsk]
            rfl
          rw [reduceSteps_succ_step R pivot cols f c l k ck h hlk hsk,
            reduceSteps_succ_step setRep pivot (cols.map S.abs) f (S.abs c) l k
              (S.abs ck) (by rw [setRep_low]; exact habsl) hlk hskm]
          have hck : S.Inv ck := hcols ck (List.getElem?_mem hsk)
          obtain ⟨h1, h2⟩ := ih (R.add c ck) (S.inv_add c ck hc hck)
          refine ⟨h1, ?_⟩
          rw [h2, S.abs_add c ck hc hck, setRep_add]

/-- One outer step of Standard Reduction commutes with the abstraction of a
simulated representation. -/
theorem RepSim.reduceStep_abs {α : Type} {R : ColumnRep α} (S : RepSim α R)
    (fuel : ℕ) (st : List α × List (ℕ × ℕ)) (hcols : ∀ c ∈ st.1, S.Inv c)
    (j : ℕ) :
    (∀ c ∈ (reduceStep R fuel st j).1, S.Inv c) ∧
      ((reduceStep R fuel st j).1.map S.abs, (reduceStep R fuel st j).2) =
        reduceStep setRep fuel (st.1.map S.abs, st.2) j := by
  rcases hcj : st.1[j]? with _ | c
  · have hcjm : (st.1.map S.abs)[j]? = none := by
      rw [List.getElem?_map, hcj]
      rfl
    have h1 : reduceStep R fuel st j = st := by
      simp only [reduceStep, hcj]
    have h2 : reduceStep setRep fuel (st.1.map S.abs, st.2) j =
        (st.1.map S.abs, st.2) := by
      simp only [reduceStep, hcjm]
    rw [h1, h2]
    exact ⟨hcols, rfl⟩
  · have hcjm : (st.1.map S.abs)[j]? = some (S.abs c) := by
      rw [List.getElem?_map, hcj]
      rfl
    have hc : S.Inv c := hcols c (List.getElem?_mem hcj)
    obtain ⟨hinv', habs'⟩ := S.reduceSteps_abs st.2 st.1 hcols fuel c hc
    have hsetinv : ∀ x ∈ st.1.set j (reduceSteps R st.2 st.1 fuel c), S.Inv x := by
      intro x hx
      rcases List.mem_or_eq_of_mem_set hx with hm | he
      · exact hcols x hm
      · rw [he]
        exact hinv'
    have hlow' : R.low (reduceSteps R st.2 st.1 fuel c) =
        lowS (reduceSteps setRep st.2 (st.1.map S.abs) fuel (S.abs c)) := by
      rw [S.low_abs _ hinv', habs']
    rcases hlc : R.low (reduceSteps R st.2 st.1 fuel c) with _ | l
    · rw [reduceStep_eq_of_none R fuel st j c hcj hlc,
        reduceStep_eq_of_none setRep fuel (st.1.map S.abs, st.2) j (S.abs c) hcjm
          (by rw [setRep_low, ← hlow']; exact hlc)]
      refine ⟨hsetinv, ?_⟩
      rw [List.map_set, habs']
    · have habsl : lowS (reduceSteps setRep st.2 (st.1.map S.abs) fuel (S.abs c))
          = some l := by rw [← hlow']; exact hlc
      rcases hlk : List.lookup l st.2 with _ | k
      · rw [reduceStep_eq_of_new R fuel st j c l hcj hlc hlk,
          reduceStep_eq_of_new setRep fuel (st.1.map S.abs, st.2) j (S.abs c) l
            hcjm (by rw [setRep_low]; exact habsl) hlk]
        refine ⟨hsetinv, ?_⟩
        rw [List.map_set, habs']
      · rw [reduceStep_eq_of_old R fuel st j c l k hcj hlc hlk,
          reduceStep_eq_of_old setRep fuel (st.1.map S.abs, st.2) j (S.abs c) l k
            hcjm (by rw [setRep_low]; exact habsl) hlk]
        refine ⟨hsetinv, ?_⟩
        rw [List.map_set, habs']

/-- Standard Reduction commutes with the abstraction of any simulated
Column Representation: the pivot maps agree exactly and the reduced columns
agree up to abstraction.  This is the representation-interchangeability
theorem. -/
theorem RepSim.standardReduceF_abs {α : Type} {R : ColumnRep α}
    (S : RepSim α R) (fuel : ℕ) (cols : List α) (hcols : ∀ c ∈ cols, S.Inv c) :
    (∀ c ∈ (standardReduceF R fuel cols).1, S.Inv c) ∧
      ((standardReduceF R fuel cols).1.map S.abs,
        (standardReduceF R fuel cols).2) =
        standardReduceF setRep fuel (cols.map S.abs) := by
  have key : ∀ j,
      (∀ c ∈ ((List.range j).foldl (reduceStep R fuel) (cols, [])).1, S.Inv c) ∧
        (((List.range j).foldl (reduceStep R fuel) (cols, [])).1.map S.abs,
          ((List.range j).foldl (reduceStep R fuel) (cols, [])).2) =
          (List.range j).foldl (reduceStep setRep fuel) (cols.map S.abs, []) := by
    intro j
    induction j with
    | zero => exact ⟨hcols, rfl⟩
    | succ j ih =>
      rw [List.range_succ, List.foldl_append, List.foldl_append]
      simp only [List.foldl_cons, List.foldl_nil]
      obtain ⟨ih1, ih2⟩ := ih
      obtain ⟨h1, h2⟩ := S.reduceStep_abs fuel _ ih1 j
      refine ⟨h1, ?_⟩
      rw [h2]
      have hpair : ((((List.range j).foldl (reduceStep R fuel) (cols, [])).1.map S.abs),
          (((List.range j).foldl (reduceStep R fuel) (cols, [])).2)) =
          (List.range j).foldl (reduceStep setRep fuel) (cols.map S.abs, []) := ih2
      rw [hpair]
  have hlen : (cols.map S.abs).length = cols.length := by
    rw [List.length_map]
  unfold standardReduceF
  rw [hlen]
  exact key cols.length

/-- Standard Reduction proper commutes with the abstraction of any simulated
Column Representation. -/
theorem RepSim.standardReduce_abs {α : Type} {R : ColumnRep α}
    (S : RepSim α R) (cols : List α) (hcols : ∀ c ∈ cols, S.Inv c) :
    (∀ c ∈ (standardReduce R cols).1, S.Inv c) ∧
      ((standardReduce R cols).1.map S.abs, (standardReduce R cols).2) =
        standardReduce setRep (cols.map S.abs) := by
  unfold standardReduce
  have hlen : (cols.map S.abs).length = cols.length := by
    rw [List.length_map]
  rw [hlen]
  exact S.standardReduceF_abs cols.length cols hcols

theorem addS_insert_left (s t : Finset ℕ) (x : ℕ) (hx : x ∉ t) :
    addS (insert x s) t = insert x (addS s t) := by
  ext i
  by_cases hi : i = x
  · subst hi
    simp [mem_addS, hx]
  · simp [mem_addS, addS, Finset.mem_symmDiff, Finset.mem_insert, hi]

theorem addS_insert_right (s t : Finset ℕ) (y : ℕ) (hy : y ∉ s) :
    addS s (insert y t) = insert y (addS s t) := by
  unfold addS
  rw [symmDiff_comm]
  rw [symmDiff_comm s t]
  exact addS_insert_left t s y hy

theorem addS_insert_both (s t : Finset ℕ) (x : ℕ) (hx : x ∉ s) (hx' : x ∉ t) :
    addS (insert x s) (insert x t) = addS s t := by
  ext i
  by_cases hi : i = x
  · subst hi
    simp [addS, Finset.mem_symmDiff, hx, hx']
  · simp [addS, Finset.mem_symmDiff, Finset.mem_insert, hi]

theorem sorted_head_not_mem (y : ℕ) (ys : List ℕ) (x : ℕ)
    (hs : List.Sorted (· < ·) (y :: ys)) (hxy : x < y) : x ∉ y :: ys := by
  intro hx
  rcases List.mem_cons.mp hx with he | hm
  · omega
  · have : y < x := (List.sorted_cons.mp hs).1 x hm
    omega

/-- Every index in the merge occurs in one of the operands. -/
theorem symDiffMerge_mem_aux : ∀ (a b : List ℕ) (i : ℕ),
    i ∈ symDiffMerge a b → i ∈ a ∨ i ∈ b := by
  intro a
  induction a with
  | nil =>
    intro b i hi
    rw [symDiffMerge] at hi
    exact Or.inr hi
  | cons x xs iha =>
    intro b
    induction b with
    | nil =>
      intro i hi
      rw [symDiffMerge] at hi
      exact Or.inl hi
    | cons y ys ihb =>
      intro i hi
      rw [symDiffMerge] at hi
      by_cases h1 : x < y
      · rw [if_pos h1] at hi
        rcases List.mem_cons.mp hi with he | hm
        · exact Or.inl (he ▸ List.mem_cons_self x xs)
        · rcases iha (y :: ys) i hm with h | h
          · exact Or.inl (List.mem_cons_of_mem x h)
          · exact Or.inr h
      · rw [if_neg h1] at hi
        by_cases h2 : y < x
        · rw [if_pos h2] at hi
          rcases List.mem_cons.mp hi with he | hm
          · exact Or.inr (he ▸ List.mem_cons_self y ys)
          · rcases ihb i hm with h | h
            · exact Or.inl h
            · exact Or.inr (List.mem_cons_of_mem y h)
        · rw [if_neg h2] at hi
          rcases iha ys i hi with h | h
          · exact Or.inl (List.mem_cons_of_mem x h)
          · exact Or.inr (List.mem_cons_of_mem y h)

/-- The symmetric-difference merge of the sorted-array representation is
sorted again. -/
theorem symDiffMerge_sorted : ∀ (a b : List ℕ),
    List.Sorted (· < ·) a → List.Sorted (· < ·) b →
    List.Sorted (· < ·) (symDiffMerge a b) := by
  intro a
  induction a with
  | nil =>
    intro b _ hb
    rw [symDiffMerge]
    exact hb
  | cons x xs iha =>
    intro b
    induction b with
    | nil =>
      intro ha _
      rw [symDiffMerge]
      exact ha
    | cons y ys ihb =>
      intro ha hb
      rw [symDiffMerge]
      rcases List.sorted_cons.mp ha with ⟨hxa, hxs⟩
      rcases List.sorted_cons.mp hb with ⟨hyb, hys⟩
      by_cases h1 : x < y
      · rw [if_pos h1]
        rw [List.sorted_cons]
        constructor
        · intro z hz
          rcases symDiffMerge_mem_aux xs (y :: ys) z hz with hm | hm
          · exact hxa z hm
          · rcases List.mem_cons.mp hm with he | hm'
            · omega
            · have := hyb z hm'
              omega
        · exact iha (y :: ys) hxs hb
      · rw [if_neg h1]
        by_cases h2 : y < x
        · rw [if_pos h2]
          rw [List.sorted_cons]
          constructor
          · intro z hz
            rcases symDiffMerge_mem_aux (x :: xs) ys z hz with hm | hm
            · rcases List.mem_cons.mp hm with he | hm'
              · omega
              · have := hxa z hm'
                omega
            · exact hyb z hm
          · exact ihb ha hys
        · rw [if_neg h2]
          exact iha ys hxs hys

/-- The symmetric-difference merge computes exactly the set symmetric
difference of the two sorted operands. -/
theorem toFinset_symDiffMerge : ∀ (a b : List ℕ),
    List.Sorted (· < ·) a → List.Sorted (· < ·) b →
    (symDiffMerge a b).toFinset = addS a.toFinset b.toFinset := by
  intro a
  induction a with
  | nil =>
    intro b _ _
    rw [symDiffMerge]
    ext i
    simp [addS, Finset.mem_symmDiff]
  | cons x xs iha =>
    intro b
    induction b with
    | nil =>
      intro _ _
      rw [symDiffMerge]
      ext i
      simp [addS, Finset.mem_symmDiff]
    | cons y ys ihb =>
      intro ha hb
      rw [symDiffMerge]
      rcases List.sorted_cons.mp ha with ⟨hxa, hxs⟩
      rcases List.sorted_cons.mp hb with ⟨hyb, hys⟩
      by_cases h1 : x < y
      · rw [if_pos h1]
        have hxnm : x ∉ (y :: ys).toFinset := by
          rw [List.mem_toFinset]
          exact sorted_head_not_mem y ys x hb h1
        have hcx : (x :: xs).toFinset = insert x xs.toFinset :=
          List.toFinset_cons
        rw [List.toFinset_cons, iha (y :: ys) hxs hb, hcx,
          addS_insert_left xs.toFinset (y :: ys).toFinset x hxnm]
      · rw [if_neg h1]
        by_cases h2 : y < x
        · rw [if_pos h2]
          have hynm : y ∉ (x :: xs).toFinset := by
            rw [List.mem_toFinset]
            exact sorted_head_not_mem x xs y ha h2
          have hcy : (y :: ys).toFinset = insert y ys.toFinset :=
            List.toFinset_cons
          rw [List.toFinset_cons, ihb ha hys, hcy,
            addS_insert_right (x :: xs).toFinset ys.toFinset y hynm]
        · rw [if_neg h2]
          have hxy : x = y := by omega
          subst hxy
          have hx1 : x ∉ xs.toFinset := by
            rw [List.mem_toFinset]
            intro hm
            have := hxa x hm
            omega
          have hx2 : x ∉ ys.toFinset := by
            rw [List.mem_toFinset]
            intro hm
            have := hyb x hm
            omega
          have hcx : (x :: xs).toFinset = insert x xs.toFinset :=
            List.toFinset_cons
          have hcy : (x :: ys).toFinset = insert x ys.toFinset :=
            List.toFinset_cons
          rw [iha ys hxs hys, hcx, hcy,
            addS_insert_both xs.toFinset ys.toFinset x hx1 hx2]

/-- The last entry of a sorted column is its membership maximum. -/
theorem lowV_spec : ∀ (c : List ℕ), sortedCol c → ∀ m, lowV c = some m →
    m ∈ c ∧ ∀ i ∈ c, i ≤ m := by
  intro c
  induction c with
  | nil =>
    intro _ m hm
    cases hm
  | cons x xs ih =>
    intro hs m hm
    cases xs with
    | nil =>
      have he : m = x := by
        cases hm
        rfl
      subst he
      exact ⟨List.mem_cons_self m [], by
        intro i hi
        rcases List.mem_cons.mp hi with he | hm'
        · omega
        · cases hm'⟩
    | cons y ys =>
      rw [lowV, List.getLast?_cons_cons] at hm
      rcases List.sorted_cons.mp hs with ⟨hxa, hxs⟩
      obtain ⟨hmem, hub⟩ := ih hxs m hm
      refine ⟨List.mem_cons_of_mem x hmem, ?_⟩
      intro i hi
      rcases List.mem_cons.mp hi with he | hm'
      · have := hxa m hmem
        omega
      · exact hub i hm'

theorem lowV_eq_lowS (c : List ℕ) (hs : sortedCol c) :
    lowV c = lowS c.toFinset := by
  cases c with
  | nil => rfl
  | cons x xs =>
    rcases hm : lowV (x :: xs) with _ | m
    · rw [lowV] at hm
      rw [List.getLast?_eq_none_iff] at hm
      cases hm
    · obtain ⟨hmem, hub⟩ := lowV_spec (x :: xs) hs m hm
      rw [eq_comm, lowS_some_iff]
      constructor
      · rw [List.mem_toFinset]
        exact hmem
      · intro i hi
        rw [List.mem_toFinset] at hi
        exact hub i hi

theorem emptyV_eq_emptyS (c : List ℕ) : emptyV c = emptyS c.toFinset := by
  cases c with
  | nil => rfl
  | cons x xs =>
    have h1 : emptyV (x :: xs) = false := rfl
    have h2 : (x :: xs).toFinset ≠ ∅ := by
      rw [List.toFinset_cons]
      exact Finset.insert_ne_empty x xs.toFinset
    rw [h1, emptyS, decide_eq_false h2]

/-- The sorted dynamic-array strategy simulates the set representation:
sortedness is its invariant and the entry set its abstraction. -/
def vecSim : RepSim (List ℕ) vecRep where
  Inv := sortedCol
  abs := List.toFinset
  inv_zero := List.sorted_nil
  abs_zero := rfl
  inv_add := fun a b ha hb => symDiffMerge_sorted a b ha hb
  abs_add := fun a b ha hb => toFinset_symDiffMerge a b ha hb
  low_abs := fun a ha => lowV_eq_lowS a ha
  isEmpty_abs := fun a _ => emptyV_eq_emptyS a

theorem addS_singleton_mem (s : Finset ℕ) (e : ℕ) (h : e ∈ s) :
    addS s {e} = s.erase e := by
  ext i
  by_cases hi : i = e
  · subst hi
    simp [addS, Finset.mem_symmDiff, h]
  · simp [addS, Finset.mem_symmDiff, Finset.mem_erase, hi]

theorem addS_singleton_not_mem (s : Finset ℕ) (e : ℕ) (h : e ∉ s) :
    addS s {e} = insert e s := by
  ext i
  by_cases hi : i = e
  · subst hi
    simp [addS, Finset.mem_symmDiff, h]
  · simp [addS, Finset.mem_symmDiff, Finset.mem_insert, hi]

theorem toggle_nodup (c : List ℕ) (e : ℕ) (h : c.Nodup) :
    (toggle c e).Nodup := by
  unfold toggle
  by_cases he : e ∈ c
  · rw [if_pos he]
    exact h.erase e
  · rw [if_neg he]
    exact List.nodup_cons.mpr ⟨he, h⟩

theorem toFinset_toggle (c : List ℕ) (e : ℕ) (h : c.Nodup) :
    (toggle c e).toFinset = addS c.toFinset {e} := by
  unfold toggle
  by_cases he : e ∈ c
  · rw [if_pos he, addS_singleton_mem c.toFinset e (List.mem_toFinset.mpr he)]
    ext i
    rw [List.mem_toFinset, h.mem_erase_iff, Finset.mem_erase, List.mem_toFinset]
  · rw [if_neg he,
      addS_singleton_not_mem c.toFinset e (fun hm => he (List.mem_toFinset.mp hm)),
      List.toFinset_cons]

theorem addL_nodup : ∀ (o c : List ℕ), c.Nodup → (addL c o).Nodup := by
  intro o
  induction o with
  | nil =>
    intro c hc
    exact hc
  | cons e os ih =>
    intro c hc
    have : addL c (e :: os) = addL (toggle c e) os := rfl
    rw [this]
    exact ih (toggle c e) (toggle_nodup c e hc)

/-- The toggling `add` of the linked-list representation computes exactly the
set symmetric difference of the two operands. -/
theorem toFinset_addL : ∀ (o c : List ℕ), c.Nodup → o.Nodup →
    (addL c o).toFinset = addS c.toFinset o.toFinset := by
  intro o
  induction o with
  | nil =>
    intro c _ _
    have h1 : addL c [] = c := rfl
    rw [h1]
    ext i
    simp [addS, Finset.mem_symmDiff]
  | cons e os ih =>
    intro c hc ho
    rcases List.nodup_cons.mp ho with ⟨heo, hos⟩
    have h1 : addL c (e :: os) = addL (toggle c e) os := rfl
    rw [h1, ih (toggle c e) (toggle_nodup c e hc) hos, toFinset_toggle c e hc]
    unfold addS
    rw [symmDiff_assoc]
    have h2 : symmDiff ({e} : Finset ℕ) os.toFinset = insert e os.toFinset := by
      rw [symmDiff_comm]
      exact addS_singleton_not_mem os.toFinset e
        (fun hm => heo (List.mem_toFinset.mp hm))
    rw [h2, List.toFinset_cons]

theorem lowL_foldl_some : ∀ (xs : List ℕ) (m : ℕ),
    xs.foldl (fun acc e =>
      match acc with
      | none => some e
      | some m' => some (Max.max m' e)) (some m) = some (xs.foldl Max.max m) := by
  intro xs
  induction xs with
  | nil =>
    intro m
    rfl
  | cons y ys ih =>
    intro m
    rw [List.foldl_cons, List.foldl_cons]
    exact ih (Max.max m y)

theorem lowL_cons (x : ℕ) (xs : List ℕ) :
    lowL (x :: xs) = some (xs.foldl Max.max x) := by
  unfold lowL
  rw [List.foldl_cons]
  exact lowL_foldl_some xs x

theorem foldl_max_spec : ∀ (xs : List ℕ) (m : ℕ),
    (xs.foldl Max.max m = m ∨ xs.foldl Max.max m ∈ xs) ∧
      m ≤ xs.foldl Max.max m ∧ ∀ i ∈ xs, i ≤ xs.foldl Max.max m := by
  intro xs
  induction xs with
  | nil =>
    intro m
    exact ⟨Or.inl rfl, le_refl m, by simp⟩
  | cons y ys ih =>
    intro m
    rw [List.foldl_cons]
    obtain ⟨hmem, hle, hub⟩ := ih (Max.max m y)
    refine ⟨?_, ?_, ?_⟩
    · rcases hmem with he | hm
      · rw [he]
        rcases Nat.le_total m y with h | h
        · right
          rw [Nat.max_eq_right h]
          exact List.mem_cons_self y ys
        · left
          rw [Nat.max_eq_left h]
      · right
        exact List.mem_cons_of_mem y hm
    · exact le_trans (Nat.le_max_left m y) hle
    · intro i hi
      rcases List.mem_cons.mp hi with he | hm
      · subst he
        exact le_trans (Nat.le_max_right m i) hle
      · exact hub i hm

theorem lowL_eq_lowS (c : List ℕ) : lowL c = lowS c.toFinset := by
  cases c with
  | nil =>
    have h1 : lowS (List.toFinset ([] : List ℕ)) = none :=
      (lowS_none_iff _).mpr (by simp)
    rw [h1]
    rfl
  | cons x xs =>
    rw [lowL_cons]
    obtain ⟨hmem, hle, hub⟩ := foldl_max_spec xs x
    rw [eq_comm, lowS_some_iff]
    constructor
    · rw [List.mem_toFinset]
      rcases hmem with he | hm
      · rw [he]
        exact List.mem_cons_self x xs
      · exact List.mem_cons_of_mem x hm
    · intro i hi
      rw [List.mem_toFinset] at hi
      rcases List.mem_cons.mp hi with he | hm
      · subst he
        exact hle
      · exact hub i hm

/-- The linked-list strategy simulates the set representation: distinctness
of entries is its invariant and the entry set its abstraction. -/
def lnkSim : RepSim (List ℕ) lnkRep where
  Inv := List.Nodup
  abs := List.toFinset
  inv_zero := List.nodup_nil
  abs_zero := rfl
  inv_add := fun a b ha _ => addL_nodup b a ha
  abs_add := fun a b ha hb => toFinset_addL b a ha hb
  low_abs := fun a _ => lowL_eq_lowS a
  isEmpty_abs := fun a _ => emptyV_eq_emptyS a

theorem insertByBirth_perm (p : PersPair) :
    ∀ l : List PersPair, (insertByBirth p l).Perm (p :: l) := by
  intro l
  induction l with
  | nil => exact List.Perm.refl _
  | cons q qs ih =>
    rw [insertByBirth]
    by_cases h : p.birth ≤ q.birth
    · rw [if_pos h]
    · rw [if_neg h]
      exact List.Perm.trans (List.Perm.cons q ih) (List.Perm.swap p q qs)

theorem sortByBirth_perm : ∀ l : List PersPair, (sortByBirth l).Perm l := by
  intro l
  induction l with
  | nil => exact List.Perm.refl _
  | cons p ps ih =>
    have h1 : sortByBirth (p :: ps) = insertByBirth p (sortByBirth ps) := rfl
    rw [h1]
    exact List.Perm.trans (insertByBirth_perm p (sortByBirth ps))
      (List.Perm.cons p ih)

theorem mem_sortByBirth (l : List PersPair) (p : PersPair) :
    p ∈ sortByBirth l ↔ p ∈ l :=
  (sortByBirth_perm l).mem_iff

/-- Membership in the extracted pair list, unfolded to the two emission
rules. -/
theorem mem_extractPairs {α : Type} (R : ColumnRep α) (dims : ℕ → ℕ)
    (cols : List α) (pivot : List (ℕ × ℕ)) (p : PersPair) :
    p ∈ extractPairs R dims cols pivot ↔
      (∃ lk ∈ pivot, p = ⟨lk.1, some lk.2, dims lk.1⟩) ∨
      (∃ i, i < cols.length ∧ (∃ c, cols[i]? = some c ∧ R.isEmpty c = true) ∧
        i ∉ pivot.map Prod.fst ∧ p = ⟨i, none, dims i⟩) := by
  unfold extractPairs
  rw [mem_sortByBirth, List.mem_append]
  constructor
  · intro h
    rcases h with h | h
    · left
      rcases List.mem_map.mp h with ⟨lk, hlk, he⟩
      exact ⟨lk, hlk, he.symm⟩
    · right
      rcases List.mem_filterMap.mp h with ⟨i, hi, he⟩
      rcases hsk : cols[i]? with _ | c
      · simp only [hsk] at he
        cases he
      · simp only [hsk] at he
        by_cases hcond : R.isEmpty c && !((pivot.map Prod.fst).contains i)
        · rw [if_pos hcond] at he
          rcases Bool.and_eq_true_iff.mp hcond with ⟨h1, h2⟩
          refine ⟨i, List.mem_range.mp hi, ⟨c, hsk, h1⟩, by simpa using h2, ?_⟩
          cases he
          rfl
        · rw [if_neg hcond] at he
          cases he
  · intro h
    rcases h with ⟨lk, hlk, he⟩ | ⟨i, hi, ⟨c, hsk, hce⟩, hnk, he⟩
    · left
      exact List.mem_map.mpr ⟨lk, hlk, he.symm⟩
    · right
      apply List.mem_filterMap.mpr
      refine ⟨i, List.mem_range.mpr hi, ?_⟩
      have h2 : ((pivot.map Prod.fst).contains i) = false := by
        simpa using hnk
      rw [he]
      simp [hsk, hce, h2]
      intro x hx
      exact hnk (List.mem_map_of_mem Prod.fst hx)

theorem lookup_of_mem_nodupKeys {β : Type} (l : ℕ) (k : β) (ps : List (ℕ × β))
    (hnd : (ps.map Prod.fst).Nodup) (h : (l, k) ∈ ps) :
    List.lookup l ps = some k := by
  induction ps with
  | nil => simp at h
  | cons p ps ih =>
    simp only [List.map_cons, List.nodup_cons] at hnd
    rcases List.mem_cons.mp h with he | hm
    · rw [← he, List.lookup]
      simp
    · rw [List.lookup]
      have hne : l ≠ p.1 := by
        intro he
        exact hnd.1 (he ▸ List.mem_map_of_mem Prod.fst hm)
      have hb : (l == p.1) = false := by
        simpa using hne
      rw [hb]
      exact ih hnd.2 hm

/-- An entry list with distinct keys assigns at most one value per key. -/
theorem nodupKeys_eq {β : Type} (P : List (ℕ × β))
    (hnd : (P.map Prod.fst).Nodup) (l : ℕ) (a b : β)
    (ha : (l, a) ∈ P) (hb : (l, b) ∈ P) : a = b := by
  have h1 := lookup_of_mem_nodupKeys l a P hnd ha
  have h2 := lookup_of_mem_nodupKeys l b P hnd hb
  rw [h1] at h2
  injection h2

/-- Characterization of the recomputed pivot list of a reduced column list:
exactly one entry per non-empty column below the bound. -/
theorem mem_pivotOf (m : List (Finset ℕ)) : ∀ (j : ℕ) (lk : ℕ × ℕ),
    lk ∈ pivotOf m j ↔ lk.2 < j ∧ lowS (colAt m lk.2) = some lk.1 := by
  intro j
  induction j with
  | zero =>
    intro lk
    unfold pivotOf
    simp
  | succ j ih =>
    intro lk
    rcases h : lowS (colAt m j) with _ | l
    · rw [pivotOf_succ_none m j h, ih lk]
      constructor
      · rintro ⟨h1, h2⟩
        exact ⟨by omega, h2⟩
      · rintro ⟨h1, h2⟩
        refine ⟨?_, h2⟩
        rcases Nat.lt_succ_iff_lt_or_eq.mp h1 with h' | h'
        · exact h'
        · rw [h'] at h2
          rw [h] at h2
          cases h2
    · rw [pivotOf_succ_some m j l h]
      constructor
      · intro hm
        rcases List.mem_cons.mp hm with he | hm'
        · subst he
          exact ⟨Nat.lt_succ_self j, h⟩
        · obtain ⟨h1, h2⟩ := (ih lk).mp hm'
          exact ⟨by omega, h2⟩
      · rintro ⟨h1, h2⟩
        rcases Nat.lt_succ_iff_lt_or_eq.mp h1 with h' | h'
        · exact List.mem_cons_of_mem _ ((ih lk).mpr ⟨h', h2⟩)
        · apply List.mem_cons.mpr
          left
          obtain ⟨a, b⟩ := lk
          simp only at h' h2
          subst h'
          rw [h] at h2
          injection h2 with h3
          rw [h3]

theorem set_colAt_self (cols : List (Finset ℕ)) (j : ℕ) (h : j < cols.length) :
    cols.set j (colAt cols j) = cols := by
  apply List.ext_getElem?
  intro i
  by_cases hij : i = j
  · subst hij
    rw [List.getElem?_set_self h, colAt_of_lt cols i h]
  · rw [List.getElem?_set_ne (fun he => hij he.symm)]

/-- Running Standard Reduction a second time leaves each already reduced
column untouched, and regrows exactly the recomputed pivot list. -/
theorem second_run_fixpoint (cols0 : List (Finset ℕ))
    (hw : ∀ k, ∀ i ∈ colAt cols0 k, i < k) :
    ∀ j, j ≤ cols0.length →
      runStd cols0.length (standardReduce setRep cols0).1 j =
        ((standardReduce setRep cols0).1,
          pivotOf (standardReduce setRep cols0).1 j) := by
  have hInv := standardReduce_inv cols0 hw
  have hlen : (standardReduce setRep cols0).1.length = cols0.length := hInv.len
  have hchr : (standardReduce setRep cols0).2 =
      pivotOf (standardReduce setRep cols0).1 cols0.length := hInv.chr
  intro j
  induction j with
  | zero =>
    intro _
    rfl
  | succ j ih =>
    intro hj
    rw [runStd_succ, ih (by omega)]
    have hjm : j < (standardReduce setRep cols0).1.length := by omega
    have hcj : (standardReduce setRep cols0).1[j]? =
        some (colAt (standardReduce setRep cols0).1 j) := colAt_of_lt _ _ hjm
    rcases hl : lowS (colAt (standardReduce setRep cols0).1 j) with _ | l
    · have hrs : reduceSteps setRep (pivotOf (standardReduce setRep cols0).1 j)
          (standardReduce setRep cols0).1 cols0.length
          (colAt (standardReduce setRep cols0).1 j) =
          colAt (standardReduce setRep cols0).1 j :=
        reduceSteps_of_low_none _ _ _ _ _ hl
      rw [reduceStep_eq_of_none setRep cols0.length
        ((standardReduce setRep cols0).1, pivotOf (standardReduce setRep cols0).1 j)
        j (colAt (standardReduce setRep cols0).1 j) hcj
        (by rw [setRep_low, hrs]; exact hl)]
      rw [hrs, set_colAt_self _ j hjm, pivotOf_succ_none _ j hl]
    · have hlkn : List.lookup l (pivotOf (standardReduce setRep cols0).1 j) = none := by
        rw [lookup_eq_none_iff]
        intro hmem
        rcases List.mem_map.mp hmem with ⟨lk, hlk, hfst⟩
        obtain ⟨hk1, hk2⟩ := (mem_pivotOf _ j lk).mp hlk
        have hk2' : lowS (colAt (standardReduce setRep cols0).1 lk.2) = some l := by
          rw [← hfst]
          exact hk2
        have hmem1 : (l, lk.2) ∈ pivotOf (standardReduce setRep cols0).1 cols0.length :=
          (mem_pivotOf _ _ _).mpr ⟨by show lk.2 < cols0.length; omega, hk2'⟩
        have hmem2 : (l, j) ∈ pivotOf (standardReduce setRep cols0).1 cols0.length :=
          (mem_pivotOf _ _ _).mpr ⟨by omega, hl⟩
        have hkeys : ((pivotOf (standardReduce setRep cols0).1 cols0.length).map
            Prod.fst).Nodup := by
          rw [← hchr]
          exact hInv.keysNd
        have heq : lk.2 = j := nodupKeys_eq _ hkeys l lk.2 j hmem1 hmem2
        omega
      have hrs : reduceSteps setRep (pivotOf (standardReduce setRep cols0).1 j)
          (standardReduce setRep cols0).1 cols0.length
          (colAt (standardReduce setRep cols0).1 j) =
          colAt (standardReduce setRep cols0).1 j :=
        reduceSteps_of_lookup_none _ _ _ _ _ l hl hlkn
      rw [reduceStep_eq_of_new setRep cols0.length
        ((standardReduce setRep cols0).1, pivotOf (standardReduce setRep cols0).1 j)
        j (colAt (standardReduce setRep cols0).1 j) l hcj
        (by rw [setRep_low, hrs]; exact hl) hlkn]
      rw [hrs, set_colAt_self _ j hjm, pivotOf_succ_some _ j l hl]

/-- Reducing an already reduced matrix changes neither the columns nor the
pivot map (set representation). -/
theorem standardReduce_idem_set (cols0 : List (Finset ℕ))
    (hw : ∀ k, ∀ i ∈ colAt cols0 k, i < k) :
    standardReduce setRep (standardReduce setRep cols0).1 =
      ((standardReduce setRep cols0).1, (standardReduce setRep cols0).2) := by
  have hInv := standardReduce_inv cols0 hw
  have hlen : (standardReduce setRep cols0).1.length = cols0.length := hInv.len
  have h1 : standardReduce setRep (standardReduce setRep cols0).1 =
      runStd cols0.length (standardReduce setRep cols0).1 cols0.length := by
    rw [standardReduce, standardReduceF_eq_runStd, hlen]
  rw [h1, second_run_fixpoint cols0 hw cols0.length (le_refl _), ← hInv.chr]

/-- Strictly sorted lists with the same entry set are equal. -/
theorem sorted_eq_of_toFinset_eq (s t : List ℕ) (hs : sortedCol s)
    (ht : sortedCol t) (h : s.toFinset = t.toFinset) : s = t := by
  haveI : IsAntisymm ℕ (· < ·) := ⟨fun a b h1 h2 => by omega⟩
  exact List.eq_of_perm_of_sorted
    (List.perm_of_nodup_nodup_toFinset_eq hs.nodup ht.nodup h) hs ht

theorem map_toFinset_inj (as : List (List ℕ)) : ∀ (bs : List (List ℕ)),
    (∀ c ∈ as, sortedCol c) → (∀ c ∈ bs, sortedCol c) →
    as.map List.toFinset = bs.map List.toFinset → as = bs := by
  induction as with
  | nil =>
    intro bs _ _ h
    cases bs with
    | nil => rfl
    | cons b bs => cases h
  | cons a as ih =>
    intro bs ha hb h
    cases bs with
    | nil => cases h
    | cons b bs =>
      simp only [List.map_cons, List.cons.injEq] at h
      obtain ⟨h1, h2⟩ := h
      have he : a = b := sorted_eq_of_toFinset_eq a b
        (ha a (List.mem_cons_self a as)) (hb b (List.mem_cons_self b bs)) h1
      rw [he, ih bs (fun c hc => ha c (List.mem_cons_of_mem a hc))
        (fun c hc => hb c (List.mem_cons_of_mem b hc)) h2]

theorem wfVec_colAt (cols : List (List ℕ)) (h : wfVec cols) :
    ∀ k, ∀ i ∈ colAt (cols.map List.toFinset) k, i < k := by
  intro k i hi
  by_cases hk : k < cols.length
  · have hg : (cols.map List.toFinset)[k]? = some (cols.get ⟨k, hk⟩).toFinset := by
      rw [List.getElem?_map, List.getElem?_eq_getElem hk]
      rw [List.get_eq_getElem]
      rfl
    have hca : colAt (cols.map List.toFinset) k = (cols.get ⟨k, hk⟩).toFinset := by
      unfold colAt
      rw [hg]
      rfl
    rw [hca, List.mem_toFinset] at hi
    exact h k hk i hi
  · exfalso
    have : colAt (cols.map List.toFinset) k = ∅ := by
      unfold colAt
      rw [List.getElem?_eq_none (by rw [List.length_map]; omega)]
      rfl
    rw [this] at hi
    exact absurd hi (Finset.not_mem_empty i)

/-- Folding a sequence of `add` operations commutes with the abstraction of
a simulated representation. -/
theorem RepSim.fold_abs {α : Type} {R : ColumnRep α} (S : RepSim α R) :
    ∀ (ops : List α) (init : α), S.Inv init → (∀ o ∈ ops, S.Inv o) →
      S.Inv (ops.foldl R.add init) ∧
      S.abs (ops.foldl R.add init) =
        (ops.map S.abs).foldl addS (S.abs init) := by
  intro ops
  induction ops with
  | nil =>
    intro init hinit _
    exact ⟨hinit, rfl⟩
  | cons o os ih =>
    intro init hinit hops
    have ho : S.Inv o := hops o (List.mem_cons_self o os)
    have hos : ∀ x ∈ os, S.Inv x := fun x hx => hops x (List.mem_cons_of_mem o hx)
    rw [List.foldl_cons, List.map_cons, List.foldl_cons]
    obtain ⟨h1, h2⟩ := ih (R.add init o) (S.inv_add init o hinit ho) hos
    refine ⟨h1, ?_⟩
    rw [h2, S.abs_add init o hinit ho]

/-- C8: on an input filtration with zero simplices, reduction is a no-op on
the empty matrix with an empty pivot map, and pair extraction returns no
pairs; no failure is signalled anywhere. -/
theorem spec_C8_empty_input {α : Type} (R : ColumnRep α) (dims : ℕ → ℕ) :
    standardReduce R ([] : List α) = ([], []) ∧
    extractPairs R dims ([] : List α) [] = [] ∧
    computePersistencePairs R dims ([] : List α) = ([], [], []) :=
  ⟨rfl, rfl, rfl⟩

/-- C5: for every non-empty column, `low()` returns the numerically largest
row index present; on an empty column it signals emptiness by returning
`none` instead of a row index; and `empty()` holds exactly of columns with
no entries.  Stated for all three representation strategies. -/
theorem spec_C5_low_contract (c : List ℕ) (s : Finset ℕ) (d : List ℕ)
    (hc : sortedCol c) :
    ((c ≠ [] → ∃ m, lowV c = some m ∧ m ∈ c ∧ ∀ i ∈ c, i ≤ m) ∧
      (lowV c = none ↔ c = []) ∧ (emptyV c = true ↔ c = [])) ∧
    ((s ≠ ∅ → ∃ m, lowS s = some m ∧ m ∈ s ∧ ∀ i ∈ s, i ≤ m) ∧
      (lowS s = none ↔ s = ∅) ∧ (emptyS s = true ↔ s = ∅)) ∧
    ((d ≠ [] → ∃ m, lowL d = some m ∧ m ∈ d ∧ ∀ i ∈ d, i ≤ m) ∧
      (lowL d = none ↔ d = []) ∧ (emptyL d = true ↔ d = [])) := by
  refine ⟨⟨?_, ?_, ?_⟩, ⟨?_, ?_, ?_⟩, ⟨?_, ?_, ?_⟩⟩
  · intro hne
    rcases hm : lowV c with _ | m
    · exfalso
      rw [lowV, List.getLast?_eq_none_iff] at hm
      exact hne hm
    · obtain ⟨h1, h2⟩ := lowV_spec c hc m hm
      exact ⟨m, rfl, h1, h2⟩
  · rw [lowV, List.getLast?_eq_none_iff]
  · rw [emptyV, List.isEmpty_iff]
  · intro hne
    obtain ⟨m, hm⟩ := lowS_isSome s hne
    obtain ⟨h1, h2⟩ := (lowS_some_iff s m).mp hm
    exact ⟨m, hm, h1, h2⟩
  · exact lowS_none_iff s
  · rw [emptyS]
    exact decide_eq_true_iff
  · intro hne
    cases d with
    | nil => exact absurd rfl hne
    | cons x xs =>
      obtain ⟨hmem, hle, hub⟩ := foldl_max_spec xs x
      refine ⟨xs.foldl Max.max x, lowL_cons x xs, ?_, ?_⟩
      · rcases hmem with he | hm
        · rw [he]
          exact List.mem_cons_self x xs
        · exact List.mem_cons_of_mem x hm
      · intro i hi
        rcases List.mem_cons.mp hi with he | hm
        · exact he ▸ hle
        · exact hub i hm
  · cases d with
    | nil =>
      constructor
      · intro _
        rfl
      · intro _
        rfl
    | cons x xs =>
      rw [lowL_cons]
      constructor
      · intro h
        cases h
      · intro h
        cases h
  · rw [emptyL, List.isEmpty_iff]

/-- Closed witness for C5 at a concrete sorted column. -/
theorem spec_C5_low_contract_witness :
    sortedCol [0, 2, 5] ∧
      ((([0, 2, 5] : List ℕ) ≠ [] →
        ∃ m, lowV [0, 2, 5] = some m ∧ m ∈ ([0, 2, 5] : List ℕ) ∧
          ∀ i ∈ ([0, 2, 5] : List ℕ), i ≤ m) ∧
      (lowV [0, 2, 5] = none ↔ ([0, 2, 5] : List ℕ) = []) ∧
      (emptyV [0, 2, 5] = true ↔ ([0, 2, 5] : List ℕ) = [])) := by
  have h := spec_C5_low_contract [0, 2, 5] (∅ : Finset ℕ) [] (by decide)
  exact ⟨by decide, h.1⟩

/-- C4: `add(other)` computes exactly the symmetric difference of the two
entry sets (an index in both disappears, an index in exactly one is kept),
and the result carries no duplicate entry.  Stated for all three
representation strategies. -/
theorem spec_C4_add_symm_diff (a b : List ℕ) (ha : sortedCol a)
    (hb : sortedCol b) (s t : Finset ℕ) (p q : List ℕ) (hp : p.Nodup)
    (hq : q.Nodup) :
    ((symDiffMerge a b).toFinset = addS a.toFinset b.toFinset ∧
      (∀ i, i ∈ symDiffMerge a b ↔ ((i ∈ a ∧ i ∉ b) ∨ (i ∈ b ∧ i ∉ a))) ∧
      (symDiffMerge a b).Nodup) ∧
    (∀ i, i ∈ addS s t ↔ ((i ∈ s ∧ i ∉ t) ∨ (i ∈ t ∧ i ∉ s))) ∧
    ((addL p q).toFinset = addS p.toFinset q.toFinset ∧
      (∀ i, i ∈ addL p q ↔ ((i ∈ p ∧ i ∉ q) ∨ (i ∈ q ∧ i ∉ p))) ∧
      (addL p q).Nodup) := by
  refine ⟨⟨toFinset_symDiffMerge a b ha hb, ?_, (symDiffMerge_sorted a b ha hb).nodup⟩,
    fun i => mem_addS s t i, ⟨toFinset_addL q p hp hq, ?_, addL_nodup q p hp⟩⟩
  · intro i
    rw [← List.mem_toFinset, toFinset_symDiffMerge a b ha hb, mem_addS]
    simp [List.mem_toFinset]
  · intro i
    rw [← List.mem_toFinset, toFinset_addL q p hp hq, mem_addS]
    simp [List.mem_toFinset]

/-- Closed witness for C4 at concrete columns. -/
theorem spec_C4_add_symm_diff_witness :
    sortedCol [0, 1, 3] ∧ sortedCol [1, 2, 3] ∧
      (symDiffMerge [0, 1, 3] [1, 2, 3]).toFinset =
        addS (List.toFinset [0, 1, 3]) (List.toFinset [1, 2, 3]) := by
  have h := spec_C4_add_symm_diff [0, 1, 3] [1, 2, 3] (by decide) (by decide)
    (∅ : Finset ℕ) ∅ [] [] List.nodup_nil List.nodup_nil
  exact ⟨by decide, by decide, h.1.1⟩

theorem vecSim_abs : vecSim.abs = List.toFinset := rfl

theorem lnkSim_abs : lnkSim.abs = List.toFinset := rfl

/-- A filled triangle: three vertices, three edges, one 2-face; the standard
concrete test filtration. -/
def triMat : List (List ℕ) := [[], [], [], [0, 1], [1, 2], [0, 2], [3, 4, 5]]

/-- Simplex dimensions of the filled-triangle filtration. -/
def triDims : ℕ → ℕ := fun i => if i ≤ 2 then 0 else if i ≤ 5 then 1 else 2

/-- C1: after reduction the pivot map is injective: its keys (low indices)
are pairwise distinct, every entry's key is strictly below its column, and
every finite persistence pair extracted from it has death strictly above
birth. -/
theorem spec_C1_pivot_injective (cols : List (List ℕ)) (dims : ℕ → ℕ)
    (hs : ∀ c ∈ cols, sortedCol c) (hw : wfVec cols) :
    (((standardReduce vecRep cols).2.map Prod.fst).Nodup) ∧
    (∀ lk ∈ (standardReduce vecRep cols).2, lk.1 < lk.2) ∧
    (∀ p ∈ extractPairs vecRep dims (standardReduce vecRep cols).1
        (standardReduce vecRep cols).2,
      ∀ d, p.death = some d → p.birth < d) := by
  obtain ⟨hinv1, habs⟩ := vecSim.standardReduce_abs cols hs
  have hset := standardReduce_inv (cols.map List.toFinset) (wfVec_colAt cols hw)
  have hpv : (standardReduce vecRep cols).2 =
      (standardReduce setRep (cols.map List.toFinset)).2 := by
    have h2 := congrArg Prod.snd habs
    simpa [vecSim_abs] using h2
  have hbd : ∀ lk ∈ (standardReduce vecRep cols).2, lk.1 < lk.2 := by
    intro lk hmem
    rw [hpv] at hmem
    obtain ⟨_, hlow⟩ := hset.pcols lk hmem
    exact hset.bound lk.2 lk.1 ((lowS_some_iff _ _).mp hlow).1
  refine ⟨?_, hbd, ?_⟩
  · rw [hpv]
    exact hset.keysNd
  · intro p hp d hd
    rw [mem_extractPairs] at hp
    rcases hp with ⟨lk, hlk, he⟩ | ⟨i, hi, _, _, he⟩
    · subst he
      simp only at hd
      cases hd
      exact hbd lk hlk
    · subst he
      cases hd

/-- Closed witness for C1 at the filled-triangle filtration. -/
theorem spec_C1_pivot_injective_witness :
    (∀ c ∈ triMat, sortedCol c) ∧ wfVec triMat ∧
      ((((standardReduce vecRep triMat).2.map Prod.fst).Nodup) ∧
      (∀ lk ∈ (standardReduce vecRep triMat).2, lk.1 < lk.2) ∧
      (∀ p ∈ extractPairs vecRep triDims (standardReduce vecRep triMat).1
          (standardReduce vecRep triMat).2,
        ∀ d, p.death = some d → p.birth < d)) :=
  ⟨by decide, by decide,
    spec_C1_pivot_injective triMat triDims (by decide) (by decide)⟩

/-- C9: reduction is idempotent: running Standard Reduction on an already
reduced matrix leaves every column unchanged and recomputes the same pivot
map. -/
theorem spec_C9_reduction_idem (cols : List (List ℕ))
    (hs : ∀ c ∈ cols, sortedCol c) (hw : wfVec cols) :
    standardReduce vecRep (standardReduce vecRep cols).1 =
      ((standardReduce vecRep cols).1, (standardReduce vecRep cols).2) := by
  obtain ⟨hinv1, habs1⟩ := vecSim.standardReduce_abs cols hs
  obtain ⟨hinv2, habs2⟩ :=
    vecSim.standardReduce_abs (standardReduce vecRep cols).1 hinv1
  have hidem := standardReduce_idem_set (cols.map List.toFinset)
    (wfVec_colAt cols hw)
  have hm1 : (standardReduce vecRep cols).1.map List.toFinset =
      (standardReduce setRep (cols.map List.toFinset)).1 := by
    have h1 := congrArg Prod.fst habs1
    simpa [vecSim_abs] using h1
  have hp1 : (standardReduce vecRep cols).2 =
      (standardReduce setRep (cols.map List.toFinset)).2 := by
    have h1 := congrArg Prod.snd habs1
    simpa [vecSim_abs] using h1
  have habs2' : ((standardReduce vecRep (standardReduce vecRep cols).1).1.map
        List.toFinset,
      (standardReduce vecRep (standardReduce vecRep cols).1).2) =
      ((standardReduce setRep (cols.map List.toFinset)).1,
        (standardReduce setRep (cols.map List.toFinset)).2) := by
    rw [← vecSim_abs, habs2, vecSim_abs, hm1, hidem]
  have hm2 : (standardReduce vecRep (standardReduce vecRep cols).1).1.map
      List.toFinset = (standardReduce setRep (cols.map List.toFinset)).1 :=
    congrArg Prod.fst habs2'
  have hp2 : (standardReduce vecRep (standardReduce vecRep cols).1).2 =
      (standardReduce setRep (cols.map List.toFinset)).2 :=
    congrArg Prod.snd habs2'
  rw [Prod.ext_iff]
  constructor
  · apply map_toFinset_inj _ _ hinv2 hinv1
    rw [hm2, hm1]
  · rw [hp2, hp1]

/-- Closed witness for C9 at the filled-triangle filtration. -/
theorem spec_C9_reduction_idem_witness :
    (∀ c ∈ triMat, sortedCol c) ∧ wfVec triMat ∧
      standardReduce vecRep (standardReduce vecRep triMat).1 =
        ((standardReduce vecRep triMat).1, (standardReduce vecRep triMat).2) :=
  ⟨by decide, by decide, spec_C9_reduction_idem triMat (by decide) (by decide)⟩

/-- C7: the inner loop of Standard Reduction terminates on well-formed
input: any fuel beyond the matrix dimension computes the same result (the
loop runs at most `n` iterations per column), because one add against the
pivot column sharing the current low strictly decreases the low of the
column (or empties it). -/
theorem spec_C7_termination (cols : List (List ℕ))
    (hs : ∀ c ∈ cols, sortedCol c) (hw : wfVec cols) :
    (∀ m, standardReduceF vecRep (cols.length + m) cols =
      standardReduce vecRep cols) ∧
    (∀ (a b : List ℕ) (l : ℕ), sortedCol a → sortedCol b →
      lowV a = some l → lowV b = some l →
      lowV (symDiffMerge a b) = none ∨
        ∃ m', lowV (symDiffMerge a b) = some m' ∧ m' < l) := by
  constructor
  · intro m
    obtain ⟨hinvF, habsF⟩ := vecSim.standardReduceF_abs (cols.length + m) cols hs
    obtain ⟨hinvN, habsN⟩ := vecSim.standardReduceF_abs cols.length cols hs
    rw [vecSim_abs] at habsF habsN
    have hlm : (cols.map List.toFinset).length = cols.length :=
      List.length_map cols List.toFinset
    have hstab := runStd_fuel_stable (cols.map List.toFinset)
      (wfVec_colAt cols hw) m cols.length (by rw [hlm])
    rw [hlm] at hstab
    have hsetstab : standardReduceF setRep (cols.length + m)
        (cols.map List.toFinset) =
        standardReduceF setRep cols.length (cols.map List.toFinset) := by
      rw [standardReduceF_eq_runStd, standardReduceF_eq_runStd, hlm]
      exact hstab
    have hF : ((standardReduceF vecRep (cols.length + m) cols).1.map
        List.toFinset, (standardReduceF vecRep (cols.length + m) cols).2) =
        ((standardReduceF vecRep cols.length cols).1.map List.toFinset,
          (standardReduceF vecRep cols.length cols).2) := by
      rw [habsF, habsN, hsetstab]
    have hF1 := congrArg Prod.fst hF
    have hF2 := congrArg Prod.snd hF
    simp only at hF1 hF2
    rw [standardReduce, Prod.ext_iff]
    exact ⟨map_toFinset_inj _ _ hinvF hinvN hF1, hF2⟩
  · intro a b l ha hb hla hlb
    have h1 : lowS a.toFinset = some l := by
      rw [← lowV_eq_lowS a ha]
      exact hla
    have h2 : lowS b.toFinset = some l := by
      rw [← lowV_eq_lowS b hb]
      exact hlb
    have h3 := lowBnd_addS_le a.toFinset b.toFinset l h1 h2
    have h4 : lowV (symDiffMerge a b) = lowS (addS a.toFinset b.toFinset) := by
      rw [lowV_eq_lowS _ (symDiffMerge_sorted a b ha hb),
        toFinset_symDiffMerge a b ha hb]
    rcases hres : lowS (addS a.toFinset b.toFinset) with _ | m'
    · left
      rw [h4, hres]
    · right
      refine ⟨m', by rw [h4, hres], ?_⟩
      have h5 := lowBnd_of_some _ _ hres
      omega

/-- Closed witness for C7 at the filled-triangle filtration. -/
theorem spec_C7_termination_witness :
    (∀ c ∈ triMat, sortedCol c) ∧ wfVec triMat ∧
      (∀ m, standardReduceF vecRep (triMat.length + m) triMat =
        standardReduce vecRep triMat) :=
  ⟨by decide, by decide,
    (spec_C7_termination triMat (by decide) (by decide)).1⟩

theorem emptyL_eq_emptyS (c : List ℕ) : emptyL c = emptyS c.toFinset :=
  emptyV_eq_emptyS c

theorem vecRep_add : vecRep.add = symDiffMerge := rfl

theorem vecRep_low : vecRep.low = lowV := rfl

theorem lnkRep_add : lnkRep.add = addL := rfl

theorem lnkRep_low : lnkRep.low = lowL := rfl

/-- C3: the three Column Representation strategies are interchangeable:
after any identical sequence of `add` operations, `low()` and `empty()`
agree bit for bit across strategies, and Standard Reduction backed by any of
them produces the same final pivot map. -/
theorem spec_C3_rep_equiv (ops : List (List ℕ)) (init : List ℕ)
    (hinit : sortedCol init) (hops : ∀ o ∈ ops, sortedCol o)
    (cols : List (List ℕ)) (hcols : ∀ c ∈ cols, sortedCol c) :
    (lowV (ops.foldl symDiffMerge init) =
        lowS ((ops.map List.toFinset).foldl addS init.toFinset) ∧
      lowL (ops.foldl addL init) =
        lowS ((ops.map List.toFinset).foldl addS init.toFinset) ∧
      emptyV (ops.foldl symDiffMerge init) =
        emptyS ((ops.map List.toFinset).foldl addS init.toFinset) ∧
      emptyL (ops.foldl addL init) =
        emptyS ((ops.map List.toFinset).foldl addS init.toFinset)) ∧
    ((standardReduce vecRep cols).2 =
        (standardReduce setRep (cols.map List.toFinset)).2 ∧
      (standardReduce lnkRep cols).2 =
        (standardReduce setRep (cols.map List.toFinset)).2) := by
  have hinitN : init.Nodup := hinit.nodup
  have hopsN : ∀ o ∈ ops, o.Nodup := fun o ho => (hops o ho).nodup
  have hcolsN : ∀ c ∈ cols, c.Nodup := fun c hc => (hcols c hc).nodup
  obtain ⟨hVi, hVa⟩ := vecSim.fold_abs ops init hinit hops
  obtain ⟨hLi, hLa⟩ := lnkSim.fold_abs ops init hinitN hopsN
  rw [vecSim_abs] at hVa
  rw [lnkSim_abs] at hLa
  rw [vecRep_add] at hVi hVa
  rw [lnkRep_add] at hLi hLa
  refine ⟨⟨?_, ?_, ?_, ?_⟩, ?_, ?_⟩
  · rw [lowV_eq_lowS _ hVi, hVa]
  · rw [lowL_eq_lowS, hLa]
  · rw [emptyV_eq_emptyS, hVa]
  · rw [emptyL_eq_emptyS, hLa]
  · obtain ⟨_, habs⟩ := vecSim.standardReduce_abs cols hcols
    have h2 := congrArg Prod.snd habs
    simpa [vecSim_abs] using h2
  · obtain ⟨_, habs⟩ := lnkSim.standardReduce_abs cols hcolsN
    have h2 := congrArg Prod.snd habs
    simpa [lnkSim_abs] using h2

/-- Closed witness for C3 at a concrete operation sequence and filtration. -/
theorem spec_C3_rep_equiv_witness :
    sortedCol [0, 2] ∧ (∀ o ∈ ([[0, 1], [1, 2]] : List (List ℕ)), sortedCol o) ∧
    (∀ c ∈ triMat, sortedCol c) ∧
    (standardReduce vecRep triMat).2 =
      (standardReduce setRep (triMat.map List.toFinset)).2 :=
  ⟨by decide, by decide, by decide,
    ((spec_C3_rep_equiv [[0, 1], [1, 2]] [0, 2] (by decide) (by decide) triMat
      (by decide)).2).1⟩

theorem computePersistencePairs_fst {α : Type} (R : ColumnRep α)
    (dims : ℕ → ℕ) (cols : List α) :
    (computePersistencePairs R dims cols).1 =
      extractPairs R dims (standardReduce R cols).1 (standardReduce R cols).2 :=
  rfl

/-- An edge with its two endpoints: vertices 0 and 1, then the edge 2 with
boundary `{0, 1}`; the spec's concrete scenario 2. -/
def edgeMat : List (List ℕ) := [[], [], [0, 1]]

/-- Simplex dimensions of the edge filtration. -/
def edgeDims : ℕ → ℕ := fun i => if i = 2 then 1 else 0

/-- Counterexample to C6 as stated: on the edge filtration the set of birth
indices over all extracted pairs is `{0, 1}`, not `{0, 1, 2}`: the death
index 2 is the birth of no pair. -/
theorem spec_C6_counterexample :
    (∀ c ∈ edgeMat, sortedCol c) ∧ wfVec edgeMat ∧
      ¬ (((computePersistencePairs vecRep edgeDims edgeMat).1.map
          PersPair.birth).toFinset = Finset.range edgeMat.length) :=
  ⟨by decide, by decide, by decide⟩

/-- C6 (amended): every filtration index appears in a pair, as a birth or as
a death: the birth indices of all extracted pairs together with the death
indices of the finite pairs form exactly `{0, …, n-1}`. -/
theorem spec_C6_completeness (cols : List (List ℕ)) (dims : ℕ → ℕ)
    (hs : ∀ c ∈ cols, sortedCol c) (hw : wfVec cols) :
    ((computePersistencePairs vecRep dims cols).1.map PersPair.birth).toFinset
      ∪ ((computePersistencePairs vecRep dims cols).1.filterMap
          PersPair.death).toFinset
      = Finset.range cols.length := by
  obtain ⟨hinv1, habs⟩ := vecSim.standardReduce_abs cols hs
  rw [vecSim_abs] at habs
  have hset := standardReduce_inv (cols.map List.toFinset) (wfVec_colAt cols hw)
  have hm : (standardReduce vecRep cols).1.map List.toFinset =
      (standardReduce setRep (cols.map List.toFinset)).1 := by
    have h1 := congrArg Prod.fst habs
    simpa using h1
  have hp : (standardReduce vecRep cols).2 =
      (standardReduce setRep (cols.map List.toFinset)).2 := by
    have h1 := congrArg Prod.snd habs
    simpa using h1
  have hlm : (cols.map List.toFinset).length = cols.length :=
    List.length_map cols List.toFinset
  have hlenv : (standardReduce vecRep cols).1.length = cols.length := by
    have h1 := congrArg List.length hm
    rw [List.length_map] at h1
    rw [h1, hset.len, hlm]
  ext x
  simp only [Finset.mem_union, Finset.mem_range, List.mem_toFinset,
    List.mem_map, List.mem_filterMap]
  constructor
  · rintro (⟨pr, hpr, hb⟩ | ⟨pr, hpr, hd⟩)
    · rw [computePersistencePairs_fst, mem_extractPairs] at hpr
      rcases hpr with ⟨lk, hlk, he⟩ | ⟨i, hi, _, _, he⟩
      · subst he
        rw [hp] at hlk
        obtain ⟨hk2, hlowk⟩ := hset.pcols lk hlk
        rw [hlm] at hk2
        have hb1 : lk.1 < lk.2 :=
          hset.bound lk.2 lk.1 ((lowS_some_iff _ _).mp hlowk).1
        simp only at hb
        omega
      · subst he
        simp only at hb
        rw [hlenv] at hi
        omega
    · rw [computePersistencePairs_fst, mem_extractPairs] at hpr
      rcases hpr with ⟨lk, hlk, he⟩ | ⟨i, hi, _, _, he⟩
      · subst he
        simp only at hd
        cases hd
        rw [hp] at hlk
        obtain ⟨hk2, _⟩ := hset.pcols lk hlk
        rw [hlm] at hk2
        exact hk2
      · subst he
        cases hd
  · intro hx
    have hxs : x < (cols.map List.toFinset).length := by omega
    rcases hlow : lowS (colAt (standardReduce setRep (cols.map List.toFinset)).1 x)
      with _ | l
    · have hempty : colAt (standardReduce setRep (cols.map List.toFinset)).1 x = ∅ :=
        (lowS_none_iff _).mp hlow
      by_cases hkey : x ∈ (standardReduce vecRep cols).2.map Prod.fst
      · rcases List.mem_map.mp hkey with ⟨lk, hlk, hfst⟩
        left
        refine ⟨⟨lk.1, some lk.2, dims lk.1⟩, ?_, hfst⟩
        rw [computePersistencePairs_fst, mem_extractPairs]
        exact Or.inl ⟨lk, hlk, rfl⟩
      · left
        have hxv : x < (standardReduce vecRep cols).1.length := by omega
        rcases hcx : (standardReduce vecRep cols).1[x]? with _ | c
        · exfalso
          rw [List.getElem?_eq_none_iff] at hcx
          omega
        · have hct : c.toFinset =
              colAt (standardReduce setRep (cols.map List.toFinset)).1 x := by
            unfold colAt
            rw [← hm, List.getElem?_map, hcx]
            rfl
          have hcnil : c = [] := by
            rw [← List.toFinset_eq_empty_iff]
            rw [hct, hempty]
          have hcempty : vecRep.isEmpty c = true := by
            rw [hcnil]
            rfl
          refine ⟨⟨x, none, dims x⟩, ?_, rfl⟩
          rw [computePersistencePairs_fst, mem_extractPairs]
          exact Or.inr ⟨x, hxv, ⟨c, hcx, hcempty⟩, hkey, rfl⟩
    · right
      have hlk : (l, x) ∈ (standardReduce vecRep cols).2 := by
        rw [hp, hset.chr]
        exact (mem_pivotOf _ _ _).mpr ⟨hxs, hlow⟩
      refine ⟨⟨l, some x, dims l⟩, ?_, rfl⟩
      rw [computePersistencePairs_fst, mem_extractPairs]
      exact Or.inl ⟨(l, x), hlk, rfl⟩

/-- Closed witness for the amended C6 at the edge filtration. -/
theorem spec_C6_completeness_witness :
    (∀ c ∈ edgeMat, sortedCol c) ∧ wfVec edgeMat ∧
      (((computePersistencePairs vecRep edgeDims edgeMat).1.map
          PersPair.birth).toFinset
        ∪ ((computePersistencePairs vecRep edgeDims edgeMat).1.filterMap
            PersPair.death).toFinset
        = Finset.range edgeMat.length) :=
  ⟨by decide, by decide,
    spec_C6_completeness edgeMat edgeDims (by decide) (by decide)⟩

instance : Std.Commutative (α := Finset ℕ) symmDiff := ⟨symmDiff_comm⟩

instance : Std.Associative (α := Finset ℕ) symmDiff := ⟨symmDiff_assoc⟩

/-- The GF(2) sum of a family of columns over an index set. -/
def xorSum (f : ℕ → Finset ℕ) (s : Finset ℕ) : Finset ℕ :=
  s.fold symmDiff ∅ f

theorem xorSum_empty (f : ℕ → Finset ℕ) : xorSum f ∅ = ∅ :=
  Finset.fold_empty

theorem xorSum_insert (f : ℕ → Finset ℕ) (a : ℕ) (s : Finset ℕ) (h : a ∉ s) :
    xorSum f (insert a s) = symmDiff (f a) (xorSum f s) :=
  Finset.fold_insert h

theorem symmDiff_empty_left (t : Finset ℕ) : symmDiff ∅ t = t := by
  simp

theorem symmDiff_empty_right (t : Finset ℕ) : symmDiff t ∅ = t := by
  simp

theorem symmDiff_eq_empty_iff (a b : Finset ℕ) : symmDiff a b = ∅ ↔ a = b := by
  constructor
  · intro h
    exact symmDiff_eq_bot.mp (by simpa using h)
  · intro h
    subst h
    simp

theorem insert_eq_symmDiff_singleton (a : ℕ) (s : Finset ℕ) (h : a ∉ s) :
    insert a s = symmDiff {a} s := by
  ext i
  by_cases hi : i = a
  · subst hi
    simp [Finset.mem_symmDiff, h]
  · simp [Finset.mem_symmDiff, hi]

theorem erase_eq_symmDiff_singleton (a : ℕ) (s : Finset ℕ) (h : a ∈ s) :
    s.erase a = symmDiff {a} s := by
  ext i
  by_cases hi : i = a
  · subst hi
    simp [Finset.mem_symmDiff, h]
  · simp [Finset.mem_symmDiff, hi]

theorem xorSum_erase (f : ℕ → Finset ℕ) (a : ℕ) (s : Finset ℕ) (h : a ∈ s) :
    xorSum f s = symmDiff (f a) (xorSum f (s.erase a)) := by
  have h1 : insert a (s.erase a) = s := Finset.insert_erase h
  rw [← h1, xorSum_insert f a _ (Finset.not_mem_erase a s)]
  rw [Finset.erase_insert (Finset.not_mem_erase a s)]

theorem xorSum_symmDiff_singleton (f : ℕ → Finset ℕ) (a : ℕ) (s : Finset ℕ) :
    xorSum f (symmDiff {a} s) = symmDiff (f a) (xorSum f s) := by
  by_cases h : a ∈ s
  · rw [← erase_eq_symmDiff_singleton a s h]
    rw [xorSum_erase f a s h, ← symmDiff_assoc, symmDiff_self]
    exact (symmDiff_empty_left _).symm
  · rw [← insert_eq_symmDiff_singleton a s h, xorSum_insert f a s h]

theorem xorSum_symmDiff (f : ℕ → Finset ℕ) (s t : Finset ℕ) :
    xorSum f (symmDiff s t) = symmDiff (xorSum f s) (xorSum f t) := by
  induction s using Finset.induction with
  | empty =>
    rw [xorSum_empty, symmDiff_empty_left, symmDiff_empty_left]
  | @insert a s ha ih =>
    rw [insert_eq_symmDiff_singleton a s ha, symmDiff_assoc,
      xorSum_symmDiff_singleton, ih, xorSum_symmDiff_singleton,
      symmDiff_assoc]

theorem mem_xorSum (f : ℕ → Finset ℕ) (s : Finset ℕ) (i : ℕ) :
    i ∈ xorSum f s ↔ Odd ((s.filter (fun u => i ∈ f u)).card) := by
  induction s using Finset.induction with
  | empty =>
    rw [xorSum_empty]
    simp
  | @insert a s ha ih =>
    rw [xorSum_insert f a s ha, Finset.mem_symmDiff, Finset.filter_insert]
    by_cases hia : i ∈ f a
    · rw [if_pos hia, Finset.card_insert_of_not_mem
        (fun hm => ha (Finset.mem_of_mem_filter a hm))]
      rw [Nat.odd_add_one]
      constructor
      · rintro (⟨_, h2⟩ | ⟨h1, h2⟩)
        · rw [← ih]
          exact h2
        · exact absurd hia h2
      · intro h
        exact Or.inl ⟨hia, by rw [ih]; exact h⟩
    · rw [if_neg hia]
      constructor
      · rintro (⟨h1, _⟩ | ⟨h1, _⟩)
        · exact absurd h1 hia
        · rw [← ih]
          exact h1
      · intro h
        exact Or.inr ⟨by rw [ih]; exact h, hia⟩

theorem xorSum_congr (f g : ℕ → Finset ℕ) (s : Finset ℕ)
    (h : ∀ u ∈ s, f u = g u) : xorSum f s = xorSum g s := by
  induction s using Finset.induction with
  | empty =>
    rw [xorSum_empty, xorSum_empty]
  | @insert a s ha ih =>
    rw [xorSum_insert f a s ha, xorSum_insert g a s ha,
      h a (Finset.mem_insert_self a s),
      ih (fun u hu => h u (Finset.mem_insert_of_mem hu))]

theorem xorSum_eq_empty (f : ℕ → Finset ℕ) (s : Finset ℕ)
    (h : ∀ u ∈ s, f u = ∅) : xorSum f s = ∅ := by
  induction s using Finset.induction with
  | empty => exact xorSum_empty f
  | @insert a s ha ih =>
    rw [xorSum_insert f a s ha, h a (Finset.mem_insert_self a s),
      ih (fun u hu => h u (Finset.mem_insert_of_mem hu)), symmDiff_self]
    rfl

theorem xorSum_filter_ne_empty (f : ℕ → Finset ℕ) (s : Finset ℕ) :
    xorSum f s = xorSum f (s.filter (fun u => f u ≠ ∅)) := by
  induction s using Finset.induction with
  | empty =>
    rw [Finset.filter_empty]
  | @insert a s ha ih =>
    rw [xorSum_insert f a s ha, Finset.filter_insert]
    by_cases h : f a = ∅
    · rw [if_neg (by simpa using h), h, symmDiff_empty_left, ih]
    · rw [if_pos h, xorSum_insert f a _
        (fun hm => ha (Finset.mem_of_mem_filter a hm)), ih]

theorem xorSum_hom (h : Finset ℕ → Finset ℕ) (f : ℕ → Finset ℕ)
    (s : Finset ℕ) (hz : h ∅ = ∅)
    (hadd : ∀ a b, h (symmDiff a b) = symmDiff (h a) (h b)) :
    h (xorSum f s) = xorSum (fun u => h (f u)) s := by
  induction s using Finset.induction with
  | empty =>
    rw [xorSum_empty, xorSum_empty, hz]
  | @insert a s ha ih =>
    rw [xorSum_insert f a s ha, xorSum_insert _ a s ha, hadd, ih]

theorem xorSum_pointwise (f g : ℕ → Finset ℕ) (s : Finset ℕ) :
    xorSum (fun u => symmDiff (f u) (g u)) s =
      symmDiff (xorSum f s) (xorSum g s) := by
  induction s using Finset.induction with
  | empty =>
    rw [xorSum_empty, xorSum_empty, xorSum_empty, symmDiff_self]
    rfl
  | @insert a s ha ih =>
    rw [xorSum_insert _ a s ha, xorSum_insert f a s ha, xorSum_insert g a s ha,
      ih]
    rw [symmDiff_assoc, symmDiff_assoc]
    apply congrArg (symmDiff (f a))
    rw [← symmDiff_assoc, symmDiff_comm (g a) (xorSum f s), symmDiff_assoc]

theorem xorSum_xorSum (f : ℕ → Finset ℕ) (U : ℕ → Finset ℕ) (s : Finset ℕ) :
    xorSum f (xorSum U s) = xorSum (fun u => xorSum f (U u)) s := by
  induction s using Finset.induction with
  | empty =>
    rw [xorSum_empty, xorSum_empty, xorSum_empty]
  | @insert a s ha ih =>
    rw [xorSum_insert U a s ha, xorSum_insert _ a s ha, xorSum_symmDiff, ih]

/-- A boundary matrix respects the simplex dimensions: every row index in a
column is one homological dimension below the column's simplex. -/
def dimsOK (dims : ℕ → ℕ) (cols : List (Finset ℕ)) : Prop :=
  ∀ k, ∀ i ∈ colAt cols k, dims i + 1 = dims k

/-- The inner loop only ever adds columns of the same dimension, so the
dimension of the entries is invariant. -/
theorem reduceSteps_dims (dims : ℕ → ℕ) (pivot : List (ℕ × ℕ))
    (cols : List (Finset ℕ)) (dd : ℕ)
    (hsrc : ∀ lk ∈ pivot, lowS (colAt cols lk.2) = some lk.1 ∧
      ∀ i ∈ colAt cols lk.2, dims i + 1 = dims lk.2) :
    ∀ fuel c, (∀ i ∈ c, dims i + 1 = dd) →
      ∀ i ∈ reduceSteps setRep pivot cols fuel c, dims i + 1 = dd := by
  intro fuel
  induction fuel with
  | zero =>
    intro c hc i hi
    rw [reduceSteps] at hi
    exact hc i hi
  | succ f ih =>
    intro c hc i hi
    rcases h : lowS c with _ | l
    · rw [reduceSteps_of_low_none setRep pivot cols (f + 1) c h] at hi
      exact hc i hi
    · rcases hlk : List.lookup l pivot with _ | k
      · rw [reduceSteps_of_lookup_none setRep pivot cols (f + 1) c l h hlk] at hi
        exact hc i hi
      · rcases hsk : cols[k]? with _ | ck
        · rw [reduceSteps_of_col_none setRep pivot cols (f + 1) c l k h hlk hsk] at hi
          exact hc i hi
        · rw [reduceSteps_succ_step setRep pivot cols f c l k ck h hlk hsk] at hi
          have hmemp : (l, k) ∈ pivot := lookup_mem l k pivot hlk
          obtain ⟨hlow, hdk⟩ := hsrc (l, k) hmemp
          simp only at hlow hdk
          have hckm : colAt cols k = ck := by
            unfold colAt
            rw [hsk]
            rfl
          have hlc : l ∈ c := ((lowS_some_iff c l).mp h).1
          have hlck : l ∈ colAt cols k := ((lowS_some_iff _ l).mp hlow).1
          have hkd : dims k = dd := by
            have h1 := hc l hlc
            have h2 := hdk l hlck
            omega
          have hcadd : ∀ i ∈ setRep.add c ck, dims i + 1 = dd := by
            intro i hi'
            rw [setRep_add] at hi'
            rcases mem_of_mem_addS c ck i hi' with hin | hin
            · exact hc i hin
            · have := hdk i (by rw [hckm]; exact hin)
              omega
          exact ih (setRep.add c ck) hcadd i hi

theorem reduceStep_cols_eq {α : Type} (R : ColumnRep α) (fuel : ℕ)
    (st : List α × List (ℕ × ℕ)) (j : ℕ) (c : α) (hcj : st.1[j]? = some c) :
    (reduceStep R fuel st j).1 =
      st.1.set j (reduceSteps R st.2 st.1 fuel c) := by
  rcases hlc : R.low (reduceSteps R st.2 st.1 fuel c) with _ | l
  · rw [reduceStep_eq_of_none R fuel st j c hcj hlc]
  · rcases hlk : List.lookup l st.2 with _ | k
    · rw [reduceStep_eq_of_new R fuel st j c l hcj hlc hlk]
    · rw [reduceStep_eq_of_old R fuel st j c l k hcj hlc hlk]

theorem reduceStep_colAt_ne (fuel : ℕ)
    (st : List (Finset ℕ) × List (ℕ × ℕ)) (j k : ℕ) (hk : k ≠ j) :
    colAt (reduceStep setRep fuel st j).1 k = colAt st.1 k := by
  rcases hcj : st.1[j]? with _ | c
  · simp only [reduceStep, hcj]
  · rw [reduceStep_cols_eq setRep fuel st j c hcj, colAt_set_ne _ _ _ _ hk]

/-- Once processed, a column never changes again during the run. -/
theorem runStd_persist (fuel : ℕ) (orig : List (Finset ℕ)) :
    ∀ j2 j1, j1 ≤ j2 → ∀ k, k < j1 →
      colAt (runStd fuel orig j2).1 k = colAt (runStd fuel orig j1).1 k := by
  intro j2
  induction j2 with
  | zero =>
    intro j1 h k hk
    have : j1 = 0 := by omega
    rw [this]
  | succ j2 ih =>
    intro j1 h k hk
    by_cases he : j1 = j2 + 1
    · rw [he]
    · have h1 : j1 ≤ j2 := by omega
      rw [runStd_succ, reduceStep_colAt_ne fuel _ j2 k (by omega)]
      exact ih j1 h1 k hk

theorem reduceStep_pivot_mono {α : Type} (R : ColumnRep α) (fuel : ℕ)
    (st : List α × List (ℕ × ℕ)) (j : ℕ) (lk : ℕ × ℕ) (h : lk ∈ st.2) :
    lk ∈ (reduceStep R fuel st j).2 := by
  rcases hcj : st.1[j]? with _ | c
  · simp only [reduceStep, hcj]
    exact h
  · rcases hlc : R.low (reduceSteps R st.2 st.1 fuel c) with _ | l
    · rw [reduceStep_eq_of_none R fuel st j c hcj hlc]
      exact h
    · rcases hlk : List.lookup l st.2 with _ | k
      · rw [reduceStep_eq_of_new R fuel st j c l hcj hlc hlk]
        exact List.mem_cons_of_mem _ h
      · rw [reduceStep_eq_of_old R fuel st j c l k hcj hlc hlk]
        exact h

theorem runStd_pivot_mono (fuel : ℕ) (orig : List (Finset ℕ)) :
    ∀ j1 j2, j1 ≤ j2 → ∀ lk, lk ∈ (runStd fuel orig j1).2 →
      lk ∈ (runStd fuel orig j2).2 := by
  intro j1 j2
  induction j2 with
  | zero =>
    intro h lk hm
    have : j1 = 0 := by omega
    rw [this] at hm
    exact hm
  | succ j2 ih =>
    intro h lk hm
    by_cases he : j1 = j2 + 1
    · rw [← he]
      exact hm
    · rw [runStd_succ]
      exact reduceStep_pivot_mono setRep fuel _ j2 lk (ih (by omega) lk hm)

/-- The inner loop adds a GF(2) sum of pivot columns to the processed
column. -/
theorem reduceSteps_trace (pivot : List (ℕ × ℕ)) (cols : List (Finset ℕ)) :
    ∀ fuel c, ∃ U : Finset ℕ,
      (∀ u ∈ U, ∃ l, (l, u) ∈ pivot) ∧
      reduceSteps setRep pivot cols fuel c =
        symmDiff c (xorSum (colAt cols) U) := by
  intro fuel
  induction fuel with
  | zero =>
    intro c
    refine ⟨∅, by simp, ?_⟩
    rw [reduceSteps, xorSum_empty, symmDiff_empty_right]
  | succ f ih =>
    intro c
    rcases h : lowS c with _ | l
    · refine ⟨∅, by simp, ?_⟩
      rw [reduceSteps_of_low_none setRep pivot cols (f + 1) c h, xorSum_empty,
        symmDiff_empty_right]
    · rcases hlk : List.lookup l pivot with _ | k
      · refine ⟨∅, by simp, ?_⟩
        rw [reduceSteps_of_lookup_none setRep pivot cols (f + 1) c l h hlk,
          xorSum_empty, symmDiff_empty_right]
      · rcases hsk : cols[k]? with _ | ck
        · refine ⟨∅, by simp, ?_⟩
          rw [reduceSteps_of_col_none setRep pivot cols (f + 1) c l k h hlk hsk,
            xorSum_empty, symmDiff_empty_right]
        · obtain ⟨U', hU1, hU2⟩ := ih (setRep.add c ck)
          refine ⟨symmDiff {k} U', ?_, ?_⟩
          · intro u hu
            rcases mem_of_mem_addS {k} U' u hu with h1 | h1
            · rw [Finset.mem_singleton] at h1
              exact ⟨l, h1 ▸ lookup_mem l k pivot hlk⟩
            · exact hU1 u h1
          · rw [reduceSteps_succ_step setRep pivot cols f c l k ck h hlk hsk,
              hU2, setRep_add]
            have hckm : colAt cols k = ck := by
              unfold colAt
              rw [hsk]
              rfl
            rw [xorSum_symmDiff_singleton, hckm]
            unfold addS
            rw [symmDiff_assoc]

/-- Standard Reduction preserves the dimension discipline of the columns. -/
theorem runStd_dims (orig : List (Finset ℕ)) (dims : ℕ → ℕ)
    (horig : ∀ k, ∀ i ∈ colAt orig k, i < k) (hdims : dimsOK dims orig)
    (fuel : ℕ) (hfuel : orig.length ≤ fuel) :
    ∀ j, j ≤ orig.length → dimsOK dims (runStd fuel orig j).1 := by
  intro j
  induction j with
  | zero =>
    intro _
    exact hdims
  | succ j ih =>
    intro hj
    have hd := ih (by omega)
    have hInv : RInv orig j (runStd fuel orig j) :=
      runStd_inv orig horig fuel hfuel j (by omega)
    rw [runStd_succ]
    have hjc : j < (runStd fuel orig j).1.length := by
      rw [hInv.len]
      omega
    have hcj : (runStd fuel orig j).1[j]? =
        some (colAt (runStd fuel orig j).1 j) := colAt_of_lt _ _ hjc
    rw [dimsOK]
    intro k i hi
    rw [reduceStep_cols_eq setRep fuel _ j _ hcj] at hi
    by_cases hk : k = j
    · subst hk
      rw [colAt_set_self _ k _ hjc] at hi
      refine reduceSteps_dims dims (runStd fuel orig k).2 (runStd fuel orig k).1
        (dims k) ?_ fuel (colAt (runStd fuel orig k).1 k) (hd k) i hi
      intro lk hlk
      exact ⟨(hInv.pcols lk hlk).2, hd lk.2⟩
    · rw [colAt_set_ne _ j k _ hk] at hi
      exact hd k i hi

/-- Every final reduced column is the original column plus a GF(2) sum of
final reduced pivot columns with smaller indices. -/
theorem runStd_final_trace (orig : List (Finset ℕ))
    (horig : ∀ k, ∀ i ∈ colAt orig k, i < k) :
    ∀ t, ∃ U : Finset ℕ,
      (∀ u ∈ U, u < t ∧ ∃ l, (l, u) ∈ (standardReduce setRep orig).2) ∧
      colAt (standardReduce setRep orig).1 t =
        symmDiff (colAt orig t)
          (xorSum (colAt (standardReduce setRep orig).1) U) := by
  intro t
  by_cases ht : t < orig.length
  · have hInv : RInv orig t (runStd orig.length orig t) :=
      runStd_inv orig horig orig.length (le_refl _) t (by omega)
    have hjc : t < (runStd orig.length orig t).1.length := by
      rw [hInv.len]
      omega
    have hcj : (runStd orig.length orig t).1[t]? =
        some (colAt (runStd orig.length orig t).1 t) := colAt_of_lt _ _ hjc
    obtain ⟨U, hU1, hU2⟩ := reduceSteps_trace (runStd orig.length orig t).2
      (runStd orig.length orig t).1 orig.length
      (colAt (runStd orig.length orig t).1 t)
    refine ⟨U, ?_, ?_⟩
    · intro u hu
      obtain ⟨l, hl⟩ := hU1 u hu
      have hu1 : u < t := (hInv.pcols (l, u) hl).1
      refine ⟨hu1, l, ?_⟩
      have h1 : (l, u) ∈ (runStd orig.length orig orig.length).2 :=
        runStd_pivot_mono orig.length orig t orig.length (by omega) (l, u) hl
      rw [standardReduce, standardReduceF_eq_runStd]
      exact h1
    · have hfinal : colAt (standardReduce setRep orig).1 t =
          colAt (runStd orig.length orig (t + 1)).1 t := by
        rw [standardReduce, standardReduceF_eq_runStd]
        exact runStd_persist orig.length orig orig.length (t + 1) (by omega) t
          (by omega)
      rw [hfinal, runStd_succ, reduceStep_cols_eq setRep orig.length _ t _ hcj,
        colAt_set_self _ t _ hjc, hU2]
      have huntouched : colAt (runStd orig.length orig t).1 t = colAt orig t :=
        hInv.untouched t (le_refl t)
      rw [huntouched]
      apply congrArg (symmDiff (colAt orig t))
      apply xorSum_congr
      intro u hu
      obtain ⟨l, hl⟩ := hU1 u hu
      have hu1 : u < t := (hInv.pcols (l, u) hl).1
      have h1 : colAt (runStd orig.length orig t).1 u =
          colAt (runStd orig.length orig orig.length).1 u :=
        (runStd_persist orig.length orig orig.length t (by omega) u hu1).symm
      rw [h1, standardReduce, standardReduceF_eq_runStd]
  · refine ⟨∅, by simp, ?_⟩
    have h1 : colAt (standardReduce setRep orig).1 t = ∅ := by
      unfold colAt
      rw [List.getElem?_eq_none]
      · rfl
      · have := (standardReduce_inv orig horig).len
        omega
    have h2 : colAt orig t = ∅ := by
      unfold colAt
      rw [List.getElem?_eq_none (by omega)]
      rfl
    rw [h1, h2, xorSum_empty, symmDiff_self]
    rfl

/-- Over a boundary matrix with zero boundary-of-boundary, every reduced
column is a cycle. -/
theorem standardReduce_cycles (orig : List (Finset ℕ))
    (horig : ∀ k, ∀ i ∈ colAt orig k, i < k)
    (hdd : ∀ t, xorSum (colAt orig) (colAt orig t) = ∅) :
    ∀ k, xorSum (colAt orig) (colAt (standardReduce setRep orig).1 k) = ∅ := by
  intro k
  induction k using Nat.strong_induction_on with
  | _ k ih =>
    obtain ⟨U, hU1, hU2⟩ := runStd_final_trace orig horig k
    rw [hU2, xorSum_symmDiff, hdd k]
    rw [symmDiff_empty_left]
    rw [xorSum_hom (xorSum (colAt orig)) _ U (xorSum_empty _)
      (fun a b => xorSum_symmDiff _ a b)]
    apply xorSum_eq_empty
    intro u hu
    exact ih u (hU1 u hu).1

/-- The zero-column lemma: over a genuine boundary matrix (zero boundary of
boundary), every key of the final pivot map has an empty reduced column.
This is what makes the Twist optimization's clearing sound. -/
theorem low_cols_empty (orig : List (Finset ℕ))
    (horig : ∀ k, ∀ i ∈ colAt orig k, i < k)
    (hdd : ∀ t, xorSum (colAt orig) (colAt orig t) = ∅) :
    ∀ lk ∈ (standardReduce setRep orig).2,
      colAt (standardReduce setRep orig).1 lk.1 = ∅ := by
  have hInv := standardReduce_inv orig horig
  have hchr := hInv.chr
  have hkeys := hInv.keysNd
  have hlen := hInv.len
  rintro ⟨l, j⟩ hmem
  simp only
  obtain ⟨hjn, hlowj⟩ := hInv.pcols (l, j) hmem
  simp only at hjn hlowj
  obtain ⟨hlj, hubj⟩ := (lowS_some_iff _ l).mp hlowj
  have hlltj : l < j := hInv.bound j l hlj
  by_contra hne
  have htr := runStd_final_trace orig horig
  choose U hU1 hU2 using htr
  have hcyc := standardReduce_cycles orig horig hdd j
  have hF2 : colAt orig l = xorSum (colAt orig)
      ((colAt (standardReduce setRep orig).1 j).erase l) := by
    have h1 := xorSum_erase (colAt orig) l
      (colAt (standardReduce setRep orig).1 j) hlj
    rw [h1] at hcyc
    exact (symmDiff_eq_empty_iff _ _).mp hcyc
  have hback : ∀ t, colAt orig t = symmDiff
      (colAt (standardReduce setRep orig).1 t)
      (xorSum (colAt (standardReduce setRep orig).1) (U t)) := by
    intro t
    rw [hU2 t, symmDiff_assoc, symmDiff_self, symmDiff_bot]
  have hZdef : colAt (standardReduce setRep orig).1 l =
      xorSum (colAt (standardReduce setRep orig).1)
        (symmDiff (symmDiff ((colAt (standardReduce setRep orig).1 j).erase l)
          (xorSum U ((colAt (standardReduce setRep orig).1 j).erase l)))
          (U l)) := by
    have h1 : colAt (standardReduce setRep orig).1 l =
        symmDiff (colAt orig l)
          (xorSum (colAt (standardReduce setRep orig).1) (U l)) := hU2 l
    rw [h1, hF2]
    rw [xorSum_congr (colAt orig) (fun i => symmDiff
      (colAt (standardReduce setRep orig).1 i)
      (xorSum (colAt (standardReduce setRep orig).1) (U i))) _
      (fun u _ => hback u)]
    rw [xorSum_pointwise]
    rw [← xorSum_xorSum]
    rw [← xorSum_symmDiff, ← xorSum_symmDiff]
  set M := (standardReduce setRep orig).1 with hM
  set P := (standardReduce setRep orig).2 with hP
  set W := symmDiff (symmDiff ((colAt M j).erase l)
    (xorSum U ((colAt M j).erase l))) (U l) with hW
  have hWlt : ∀ w ∈ W, w < l := by
    intro w hw
    rcases mem_of_mem_addS _ _ w hw with h1 | h1
    · rcases mem_of_mem_addS _ _ w h1 with h2 | h2
      · have hwj : w ∈ colAt M j := Finset.mem_of_mem_erase h2
        have hwne : w ≠ l := Finset.ne_of_mem_erase h2
        have := hubj w hwj
        omega
      · rw [mem_xorSum] at h2
        have hcard : ((colAt M j).erase l).filter (fun u => w ∈ U u) ≠ ∅ := by
          intro hemp
          rw [hemp] at h2
          simp at h2
        obtain ⟨i, hi⟩ := Finset.nonempty_of_ne_empty hcard
        have hiZ := Finset.mem_of_mem_filter i hi
        have hwUi : w ∈ U i := (Finset.mem_filter.mp hi).2
        have h3 : w < i := (hU1 i w hwUi).1
        have hij : i ∈ colAt M j := Finset.mem_of_mem_erase hiZ
        have hine : i ≠ l := Finset.ne_of_mem_erase hiZ
        have := hubj i hij
        omega
    · exact (hU1 l w h1).1
  have hW2 : colAt M l = xorSum (colAt M)
      (W.filter (fun u => colAt M u ≠ ∅)) := by
    rw [hZdef]
    exact xorSum_filter_ne_empty (colAt M) W
  set T := W.filter (fun u => colAt M u ≠ ∅) with hT
  rcases Finset.eq_empty_or_nonempty T with hTe | hTne
  · rw [hTe, xorSum_empty] at hW2
    exact hne hW2
  · obtain ⟨u0, hu0T, hu0max⟩ := Finset.exists_max_image T
      (fun u => lowBnd (colAt M u)) hTne
    have hu0ne : colAt M u0 ≠ ∅ := (Finset.mem_filter.mp hu0T).2
    obtain ⟨lam, hlam⟩ := lowS_isSome (colAt M u0) hu0ne
    obtain ⟨hlamm, hlamub⟩ := (lowS_some_iff _ lam).mp hlam
    have hpivT : ∀ u ∈ T, ∀ lu, lowS (colAt M u) = some lu → (lu, u) ∈ P := by
      intro u huT lu hlu
      have hul : u < l := hWlt u (Finset.mem_of_mem_filter u huT)
      have hun : u < orig.length := by omega
      rw [hchr]
      exact (mem_pivotOf M orig.length (lu, u)).mpr ⟨hun, hlu⟩
    have hfilter : T.filter (fun u => lam ∈ colAt M u) = {u0} := by
      apply Finset.ext
      intro u
      rw [Finset.mem_filter, Finset.mem_singleton]
      constructor
      · rintro ⟨huT, hlamu⟩
        have hune : colAt M u ≠ ∅ := (Finset.mem_filter.mp huT).2
        obtain ⟨lu, hlu⟩ := lowS_isSome (colAt M u) hune
        obtain ⟨hlum, hluub⟩ := (lowS_some_iff _ lu).mp hlu
        have h1 : lam ≤ lu := hluub lam hlamu
        have h2 : lowBnd (colAt M u) ≤ lowBnd (colAt M u0) := hu0max u huT
        rw [lowBnd_of_some _ _ hlu, lowBnd_of_some _ _ hlam] at h2
        have h3 : lu = lam := by omega
        have hp1 : (lam, u) ∈ P := hpivT u huT lam (h3 ▸ hlu)
        have hp2 : (lam, u0) ∈ P := hpivT u0 hu0T lam hlam
        exact nodupKeys_eq P hkeys lam u u0 hp1 hp2
      · intro h
        rw [h]
        exact ⟨hu0T, hlamm⟩
    have hlamX : lam ∈ xorSum (colAt M) T := by
      rw [mem_xorSum, hfilter]
      simp
    have hubX : ∀ i ∈ xorSum (colAt M) T, i ≤ lam := by
      intro i hi
      rw [mem_xorSum] at hi
      have hcard : T.filter (fun u => i ∈ colAt M u) ≠ ∅ := by
        intro hemp
        rw [hemp] at hi
        simp at hi
      obtain ⟨u, hu⟩ := Finset.nonempty_of_ne_empty hcard
      have huT := Finset.mem_of_mem_filter u hu
      have hiu : i ∈ colAt M u := (Finset.mem_filter.mp hu).2
      have hune : colAt M u ≠ ∅ := (Finset.mem_filter.mp huT).2
      obtain ⟨lu, hlu⟩ := lowS_isSome (colAt M u) hune
      obtain ⟨_, hluub⟩ := (lowS_some_iff _ lu).mp hlu
      have h1 : i ≤ lu := hluub i hiu
      have h2 : lowBnd (colAt M u) ≤ lowBnd (colAt M u0) := hu0max u huT
      rw [lowBnd_of_some _ _ hlu, lowBnd_of_some _ _ hlam] at h2
      omega
    have hlowl : lowS (colAt M l) = some lam := by
      rw [hW2, lowS_some_iff]
      exact ⟨hlamX, hubX⟩
    have hp3 : (lam, l) ∈ P := by
      rw [hchr]
      exact (mem_pivotOf M orig.length (lam, l)).mpr ⟨by omega, hlowl⟩
    have hp4 : (lam, u0) ∈ P := hpivT u0 hu0T lam hlam
    have : l = u0 := nodupKeys_eq P hkeys lam l u0 hp3 hp4
    have hu0l : u0 < l := hWlt u0 (Finset.mem_of_mem_filter u0 hu0T)
    omega

/-- Two reduction contexts that agree on all lookups and sources over a
class of row indices drive the inner loop identically on a column whose
entries stay in that class. -/
theorem reduceSteps_agree (K : ℕ → Prop) (p1 p2 : List (ℕ × ℕ))
    (cols1 cols2 : List (Finset ℕ))
    (hlk : ∀ l, K l → List.lookup l p1 = List.lookup l p2)
    (hcols : ∀ l k, K l → List.lookup l p1 = some k → cols1[k]? = cols2[k]?)
    (hclose : ∀ l k ck, K l → List.lookup l p1 = some k →
      cols1[k]? = some ck → ∀ i ∈ ck, K i) :
    ∀ fuel c, (∀ i ∈ c, K i) →
      reduceSteps setRep p1 cols1 fuel c =
        reduceSteps setRep p2 cols2 fuel c := by
  intro fuel
  induction fuel with
  | zero =>
    intro c _
    rw [reduceSteps, reduceSteps]
  | succ f ih =>
    intro c hc
    rcases h : lowS c with _ | l
    · rw [reduceSteps_of_low_none setRep p1 cols1 (f + 1) c h,
        reduceSteps_of_low_none setRep p2 cols2 (f + 1) c h]
    · have hKl : K l := hc l ((lowS_some_iff c l).mp h).1
      have hl12 := hlk l hKl
      rcases hlkp : List.lookup l p1 with _ | k
      · rw [reduceSteps_of_lookup_none setRep p1 cols1 (f + 1) c l h hlkp,
          reduceSteps_of_lookup_none setRep p2 cols2 (f + 1) c l h
            (by rw [← hl12]; exact hlkp)]
      · have hlkp2 : List.lookup l p2 = some k := by
          rw [← hl12]
          exact hlkp
        have hc12 := hcols l k hKl hlkp
        rcases hsk : cols1[k]? with _ | ck
        · rw [reduceSteps_of_col_none setRep p1 cols1 (f + 1) c l k h hlkp hsk,
            reduceSteps_of_col_none setRep p2 cols2 (f + 1) c l k h hlkp2
              (by rw [← hc12]; exact hsk)]
        · have hsk2 : cols2[k]? = some ck := by
            rw [← hc12]
            exact hsk
          rw [reduceSteps_succ_step setRep p1 cols1 f c l k ck h hlkp hsk,
            reduceSteps_succ_step setRep p2 cols2 f c l k ck h hlkp2 hsk2]
          apply ih
          intro i hi
          rw [setRep_add] at hi
          rcases mem_of_mem_addS c ck i hi with h1 | h1
          · exact hc i h1
          · exact hclose l k ck hKl hlkp hsk i h1

/-- Entry lists with distinct keys and the same entries have identical
lookups. -/
theorem lookup_eq_of_mem_iff {β : Type} [DecidableEq β] (p1 p2 : List (ℕ × β))
    (h1 : (p1.map Prod.fst).Nodup) (h2 : (p2.map Prod.fst).Nodup) (l : ℕ)
    (hmem : ∀ k, (l, k) ∈ p1 ↔ (l, k) ∈ p2) :
    List.lookup l p1 = List.lookup l p2 := by
  rcases hl1 : List.lookup l p1 with _ | k
  · rcases hl2 : List.lookup l p2 with _ | k2
    · rfl
    · exfalso
      have hm : (l, k2) ∈ p1 := (hmem k2).mpr (lookup_mem l k2 p2 hl2)
      rw [lookup_of_mem_nodupKeys l k2 p1 h1 hm] at hl1
      cases hl1
  · have hm : (l, k) ∈ p2 := (hmem k).mp (lookup_mem l k p1 hl1)
    rw [lookup_of_mem_nodupKeys l k p2 h2 hm]

theorem twistStep_eq_of_none {α : Type} (R : ColumnRep α) (fuel : ℕ)
    (st : List α × List (ℕ × ℕ)) (j : ℕ) (c : α) (hcj : st.1[j]? = some c)
    (hlc : R.low (reduceSteps R st.2 st.1 fuel c) = none) :
    twistStep R fuel st j =
      (st.1.set j (reduceSteps R st.2 st.1 fuel c), st.2) := by
  simp only [twistStep, hcj, hlc]

theorem twistStep_eq_of_new {α : Type} (R : ColumnRep α) (fuel : ℕ)
    (st : List α × List (ℕ × ℕ)) (j : ℕ) (c : α) (l : ℕ)
    (hcj : st.1[j]? = some c)
    (hlc : R.low (reduceSteps R st.2 st.1 fuel c) = some l)
    (hlk : List.lookup l st.2 = none) :
    twistStep R fuel st j =
      ((st.1.set j (reduceSteps R st.2 st.1 fuel c)).set l R.zero,
        (l, j) :: st.2) := by
  simp only [twistStep, hcj, hlc, hlk]

theorem twistStep_eq_of_old {α : Type} (R : ColumnRep α) (fuel : ℕ)
    (st : List α × List (ℕ × ℕ)) (j : ℕ) (c : α) (l k : ℕ)
    (hcj : st.1[j]? = some c)
    (hlc : R.low (reduceSteps R st.2 st.1 fuel c) = some l)
    (hlk : List.lookup l st.2 = some k) :
    twistStep R fuel st j =
      (st.1.set j (reduceSteps R st.2 st.1 fuel c), st.2) := by
  simp only [twistStep, hcj, hlc, hlk]

/-- The final value of a reduced column is exactly what the inner loop
computes from the state just before processing it. -/
theorem colM_eq_reduceSteps (D : List (Finset ℕ))
    (horig : ∀ k, ∀ i ∈ colAt D k, i < k) (j : ℕ) (hj : j < D.length) :
    colAt (standardReduce setRep D).1 j =
      reduceSteps setRep (runStd D.length D j).2 (runStd D.length D j).1
        D.length (colAt (runStd D.length D j).1 j) := by
  have hInv : RInv D j (runStd D.length D j) :=
    runStd_inv D horig D.length (le_refl _) j (by omega)
  have hjc : j < (runStd D.length D j).1.length := by
    rw [hInv.len]
    omega
  have hcj : (runStd D.length D j).1[j]? =
      some (colAt (runStd D.length D j).1 j) := colAt_of_lt _ _ hjc
  have hfinal : colAt (standardReduce setRep D).1 j =
      colAt (runStd D.length D (j + 1)).1 j := by
    rw [standardReduce, standardReduceF_eq_runStd]
    exact runStd_persist D.length D D.length (j + 1) (by omega) j (by omega)
  rw [hfinal, runStd_succ, reduceStep_cols_eq setRep D.length _ j _ hcj,
    colAt_set_self _ j _ hjc]

/-- The strict processing-priority order of the Twist optimization: higher
dimension first, then ascending filtration index. -/
def precDim (dims : ℕ → ℕ) (a b : ℕ) : Prop :=
  dims b < dims a ∨ (dims a = dims b ∧ a < b)

/-- The block concatenation underlying the Twist processing order. -/
def ordFold (dims : ℕ → ℕ) (n : ℕ) (ds : List ℕ) : List ℕ :=
  ds.foldr (fun d acc => ((List.range n).filter (fun j => dims j = d)) ++ acc) []

theorem twistOrder_eq_ordFold (dims : ℕ → ℕ) (maxd n : ℕ) :
    twistOrder dims maxd n = ordFold dims n ((List.range (maxd + 1)).reverse) :=
  rfl

theorem mem_ordFold (dims : ℕ → ℕ) (n : ℕ) : ∀ (ds : List ℕ) (j : ℕ),
    j ∈ ordFold dims n ds ↔ j < n ∧ dims j ∈ ds := by
  intro ds
  induction ds with
  | nil =>
    intro j
    simp [ordFold]
  | cons d ds ih =>
    intro j
    have h1 : ordFold dims n (d :: ds) =
        ((List.range n).filter (fun j => dims j = d)) ++ ordFold dims n ds := rfl
    rw [h1, List.mem_append, List.mem_filter, List.mem_range, ih j,
      List.mem_cons]
    constructor
    · rintro (⟨h2, h3⟩ | ⟨h2, h3⟩)
      · exact ⟨h2, Or.inl (by simpa using h3)⟩
      · exact ⟨h2, Or.inr h3⟩
    · rintro ⟨h2, h3 | h3⟩
      · exact Or.inl ⟨h2, by simpa using h3⟩
      · exact Or.inr ⟨h2, h3⟩

theorem ordFold_pairwise (dims : ℕ → ℕ) (n : ℕ) : ∀ (ds : List ℕ),
    ds.Pairwise (fun a b => b < a) →
    (ordFold dims n ds).Pairwise (precDim dims) := by
  intro ds
  induction ds with
  | nil =>
    intro _
    exact List.Pairwise.nil
  | cons d ds ih =>
    intro hp
    rcases List.pairwise_cons.mp hp with ⟨hd, hds⟩
    have h1 : ordFold dims n (d :: ds) =
        ((List.range n).filter (fun j => dims j = d)) ++ ordFold dims n ds := rfl
    rw [h1, List.pairwise_append]
    refine ⟨?_, ih hds, ?_⟩
    · have h2 : ((List.range n).filter (fun j => dims j = d)).Pairwise (· < ·) :=
        (List.pairwise_lt_range n).filter _
      apply h2.imp_of_mem
      intro a b ha hb hab
      have hda : dims a = d := by simpa using (List.mem_filter.mp ha).2
      have hdb : dims b = d := by simpa using (List.mem_filter.mp hb).2
      exact Or.inr ⟨by rw [hda, hdb], hab⟩
    · intro a ha b hb
      have hda : dims a = d := by simpa using (List.mem_filter.mp ha).2
      have hdb : dims b ∈ ds := ((mem_ordFold dims n ds b).mp hb).2
      exact Or.inl (by rw [hda]; exact hd (dims b) hdb)

theorem mem_twistOrder (dims : ℕ → ℕ) (maxd n j : ℕ) :
    j ∈ twistOrder dims maxd n ↔ j < n ∧ dims j ≤ maxd := by
  rw [twistOrder_eq_ordFold, mem_ordFold, List.mem_reverse, List.mem_range]
  omega

theorem twistOrder_pairwise (dims : ℕ → ℕ) (maxd n : ℕ) :
    (twistOrder dims maxd n).Pairwise (precDim dims) := by
  rw [twistOrder_eq_ordFold]
  apply ordFold_pairwise
  rw [List.pairwise_reverse]
  exact List.pairwise_lt_range (maxd + 1)

theorem precDim_irrefl (dims : ℕ → ℕ) (a : ℕ) : ¬ precDim dims a a := by
  intro h
  rcases h with h | ⟨_, h⟩
  · omega
  · omega

theorem precDim_asymm (dims : ℕ → ℕ) (a b : ℕ) (h1 : precDim dims a b)
    (h2 : precDim dims b a) : False := by
  rcases h1 with h1 | ⟨h1, h1'⟩
  · rcases h2 with h2 | ⟨h2, _⟩
    · omega
    · omega
  · rcases h2 with h2 | ⟨_, h2'⟩
    · omega
    · omega

theorem standardReduce_eq_runStd (D : List (Finset ℕ)) :
    standardReduce setRep D = runStd D.length D D.length := rfl

/-- The simulation invariant of the Twist optimization against the final
standard reduction: processed or cleared columns already hold their final
standard value, unprocessed ones still hold the input, and the pivot list
holds exactly the final standard entries whose column has been processed. -/
def TwistInv (D : List (Finset ℕ)) (done : List ℕ)
    (st : List (Finset ℕ) × List (ℕ × ℕ)) : Prop :=
  st.1.length = D.length ∧
  (∀ k, colAt st.1 k =
    (if k ∈ done ∨ k ∈ st.2.map Prod.fst
     then colAt (standardReduce setRep D).1 k else colAt D k)) ∧
  (∀ lk : ℕ × ℕ, lk ∈ st.2 ↔
    lk ∈ (standardReduce setRep D).2 ∧ lk.2 ∈ done) ∧
  (st.2.map Prod.fst).Nodup

/-- One Twist step preserves the simulation invariant, assuming the columns
processed so far are exactly those that precede the current one in Twist
order. -/
theorem twistStep_inv (D : List (Finset ℕ)) (dims : ℕ → ℕ)
    (hw : ∀ k, ∀ i ∈ colAt D k, i < k) (hdims : dimsOK dims D)
    (hdd : ∀ t, xorSum (colAt D) (colAt D t) = ∅)
    (done : List ℕ) (j : ℕ) (st : List (Finset ℕ) × List (ℕ × ℕ))
    (hInv : TwistInv D done st) (hjn : j < D.length)
    (hdone : ∀ k, k ∈ done ↔ (k < D.length ∧ precDim dims k j)) :
    TwistInv D (done ++ [j]) (twistStep setRep D.length st j) := by
  obtain ⟨hlen, hcols, hpiv, hkeys⟩ := hInv
  have hstdInv := standardReduce_inv D hw
  have hchr := hstdInv.chr
  have hPkeys := hstdInv.keysNd
  have hMlen : (standardReduce setRep D).1.length = D.length := hstdInv.len
  have hMdims : dimsOK dims (standardReduce setRep D).1 :=
    runStd_dims D dims hw hdims D.length (le_refl _) D.length (le_refl _)
  have hThmA := low_cols_empty D hw hdd
  have hjd : j ∉ done := fun hm => precDim_irrefl dims j ((hdone j).mp hm).2
  have hjc : st.1[j]? = some (colAt st.1 j) :=
    colAt_of_lt _ _ (by rw [hlen]; omega)
  have hPmem : ∀ l k, (l, k) ∈ (standardReduce setRep D).2 ↔
      k < D.length ∧ lowS (colAt (standardReduce setRep D).1 k) = some l := by
    intro l k
    rw [hchr]
    have h1 := mem_pivotOf (standardReduce setRep D).1 D.length (l, k)
    simpa using h1
  have hPdim : ∀ l k, (l, k) ∈ (standardReduce setRep D).2 →
      dims l + 1 = dims k := by
    intro l k h
    obtain ⟨hk, hlow⟩ := (hPmem l k).mp h
    exact hMdims k l ((lowS_some_iff _ l).mp hlow).1
  by_cases hkeyj : j ∈ st.2.map Prod.fst
  · -- the column was cleared by a higher-dimensional pivot
    have h1 : colAt st.1 j = colAt (standardReduce setRep D).1 j := by
      rw [hcols j, if_pos (Or.inr hkeyj)]
    obtain ⟨lk0, hlk0, hfst0⟩ := List.mem_map.mp hkeyj
    have hlk0P : lk0 ∈ (standardReduce setRep D).2 := ((hpiv lk0).mp hlk0).1
    have hempty : colAt (standardReduce setRep D).1 j = ∅ := by
      have h2 := hThmA lk0 hlk0P
      rw [hfst0] at h2
      exact h2
    have hlow : lowS (colAt st.1 j) = none := by
      rw [h1, hempty]
      exact (lowS_none_iff _).mpr rfl
    have hred : reduceSteps setRep st.2 st.1 D.length (colAt st.1 j) =
        colAt st.1 j := reduceSteps_of_low_none _ _ _ _ _ hlow
    rw [twistStep_eq_of_none setRep D.length st j _ hjc
      (by rw [setRep_low, hred]; exact hlow)]
    refine ⟨by simpa using hlen, ?_, ?_, hkeys⟩
    · intro k
      by_cases hk : k = j
      · subst hk
        rw [colAt_set_self _ k _ (by rw [hlen]; omega), hred, h1,
          if_pos (Or.inl (by simp))]
      · rw [colAt_set_ne _ j k _ hk, hcols k]
        by_cases hc1 : k ∈ done ∨ k ∈ st.2.map Prod.fst
        · rw [if_pos hc1, if_pos]
          rcases hc1 with hc1 | hc1
          · exact Or.inl (List.mem_append_left _ hc1)
          · exact Or.inr hc1
        · rw [if_neg hc1, if_neg]
          intro hc2
          apply hc1
          rcases hc2 with hc2 | hc2
          · rcases List.mem_append.mp hc2 with hc3 | hc3
            · exact Or.inl hc3
            · exact absurd (by simpa using hc3) hk
          · exact Or.inr hc2
    · rintro ⟨a, b⟩
      rw [hpiv (a, b)]
      simp only
      constructor
      · rintro ⟨h2, h3⟩
        exact ⟨h2, List.mem_append_left _ h3⟩
      · rintro ⟨h2, h3⟩
        refine ⟨h2, ?_⟩
        rcases List.mem_append.mp h3 with h4 | h4
        · exact h4
        · exfalso
          have hj2 : b = j := by simpa using h4
          obtain ⟨_, hlow2⟩ := (hPmem a b).mp h2
          rw [hj2, hempty] at hlow2
          rw [(lowS_none_iff ∅).mpr rfl] at hlow2
          cases hlow2
  · -- the column still holds its input value and is reduced as in standard
    have hcoljD : colAt st.1 j = colAt D j := by
      rw [hcols j, if_neg]
      intro hc2
      rcases hc2 with hc2 | hc2
      · exact hjd hc2
      · exact hkeyj hc2
    have hstg : RInv D j (runStd D.length D j) :=
      runStd_inv D hw D.length (le_refl _) j (by omega)
    have hpersist : ∀ k, k < j →
        colAt (runStd D.length D j).1 k =
          colAt (standardReduce setRep D).1 k := by
      intro k hk
      rw [standardReduce_eq_runStd]
      exact (runStd_persist D.length D D.length j (by omega) k hk).symm
    have hstg_chr : (runStd D.length D j).2 =
        pivotOf (runStd D.length D j).1 j := hstg.chr
    have hPdone : ∀ l k, dims l + 1 = dims j →
        (l, k) ∈ (standardReduce setRep D).2 → (k ∈ done ↔ k < j) := by
      intro l k hKl hP
      have hdk : dims k = dims j := by
        have := hPdim l k hP
        omega
      have hkn : k < D.length := ((hPmem l k).mp hP).1
      rw [hdone k]
      unfold precDim
      constructor
      · rintro ⟨_, h5 | ⟨_, h5⟩⟩
        · omega
        · exact h5
      · intro h5
        exact ⟨hkn, Or.inr ⟨hdk, h5⟩⟩
    have hmemiff : ∀ l, dims l + 1 = dims j → ∀ k,
        ((l, k) ∈ st.2 ↔ (l, k) ∈ (runStd D.length D j).2) := by
      intro l hKl k
      rw [hpiv (l, k), hstg_chr]
      have h2 := mem_pivotOf (runStd D.length D j).1 j (l, k)
      rw [h2]
      simp only
      constructor
      · rintro ⟨hP, hdn⟩
        have hklt : k < j := (hPdone l k hKl hP).mp hdn
        obtain ⟨_, hlow⟩ := (hPmem l k).mp hP
        refine ⟨hklt, ?_⟩
        rw [hpersist k hklt]
        exact hlow
      · rintro ⟨hklt, hlow⟩
        rw [hpersist k hklt] at hlow
        have hP : (l, k) ∈ (standardReduce setRep D).2 :=
          (hPmem l k).mpr ⟨by omega, hlow⟩
        exact ⟨hP, (hPdone l k hKl hP).mpr hklt⟩
    have hagree : reduceSteps setRep st.2 st.1 D.length (colAt D j) =
        reduceSteps setRep (runStd D.length D j).2 (runStd D.length D j).1
          D.length (colAt D j) := by
      apply reduceSteps_agree (fun i => dims i + 1 = dims j)
      · intro l hKl
        exact lookup_eq_of_mem_iff st.2 (runStd D.length D j).2 hkeys
          hstg.keysNd l (hmemiff l hKl)
      · intro l k hKl hlkup
        have hmem : (l, k) ∈ st.2 := lookup_mem l k st.2 hlkup
        obtain ⟨hP, hdn⟩ := (hpiv (l, k)).mp hmem
        have hklt : k < j := (hPdone l k hKl hP).mp hdn
        have hc1 : colAt st.1 k = colAt (standardReduce setRep D).1 k := by
          rw [hcols k, if_pos (Or.inl hdn)]
        have hc2 : colAt (runStd D.length D j).1 k =
            colAt (standardReduce setRep D).1 k := hpersist k hklt
        have hk1 : st.1[k]? = some (colAt st.1 k) :=
          colAt_of_lt _ _ (by rw [hlen]; omega)
        have hk2 : (runStd D.length D j).1[k]? =
            some (colAt (runStd D.length D j).1 k) :=
          colAt_of_lt _ _ (by rw [hstg.len]; omega)
        rw [hk1, hk2, hc1, hc2]
      · intro l k ck hKl hlkup hck i hi
        have hmem : (l, k) ∈ st.2 := lookup_mem l k st.2 hlkup
        obtain ⟨hP, hdn⟩ := (hpiv (l, k)).mp hmem
        have hdk : dims k = dims j := by
          have := hPdim l k hP
          omega
        have hc1 : colAt st.1 k = ck := by
          unfold colAt
          rw [hck]
          rfl
        have hc2 : colAt st.1 k = colAt (standardReduce setRep D).1 k := by
          rw [hcols k, if_pos (Or.inl hdn)]
        have := hMdims k i (by rw [← hc2, hc1]; exact hi)
        omega
      · intro i hi
        exact hdims j i hi
    have hcolM := colM_eq_reduceSteps D hw j hjn
    rw [hstg.untouched j (le_refl j)] at hcolM
    have hc' : reduceSteps setRep st.2 st.1 D.length (colAt st.1 j) =
        colAt (standardReduce setRep D).1 j := by
      rw [hcoljD, hagree]
      exact hcolM.symm
    rcases hlowM : lowS (colAt (standardReduce setRep D).1 j) with _ | l
    · rw [twistStep_eq_of_none setRep D.length st j _ hjc
        (by rw [setRep_low, hc']; exact hlowM)]
      refine ⟨by simpa using hlen, ?_, ?_, hkeys⟩
      · intro k
        by_cases hk : k = j
        · subst hk
          rw [colAt_set_self _ k _ (by rw [hlen]; omega), hc',
            if_pos (Or.inl (by simp))]
        · rw [colAt_set_ne _ j k _ hk, hcols k]
          by_cases hc1 : k ∈ done ∨ k ∈ st.2.map Prod.fst
          · rw [if_pos hc1, if_pos]
            rcases hc1 with hc1 | hc1
            · exact Or.inl (List.mem_append_left _ hc1)
            · exact Or.inr hc1
          · rw [if_neg hc1, if_neg]
            intro hc2
            apply hc1
            rcases hc2 with hc2 | hc2
            · rcases List.mem_append.mp hc2 with hc3 | hc3
              · exact Or.inl hc3
              · exact absurd (by simpa using hc3) hk
            · exact Or.inr hc2
      · rintro ⟨a, b⟩
        rw [hpiv (a, b)]
        simp only
        constructor
        · rintro ⟨h2, h3⟩
          exact ⟨h2, List.mem_append_left _ h3⟩
        · rintro ⟨h2, h3⟩
          refine ⟨h2, ?_⟩
          rcases List.mem_append.mp h3 with h4 | h4
          · exact h4
          · exfalso
            have hj2 : b = j := by simpa using h4
            obtain ⟨_, hlow2⟩ := (hPmem a b).mp h2
            rw [hj2, hlowM] at hlow2
            cases hlow2
    · have hljP : (l, j) ∈ (standardReduce setRep D).2 :=
        (hPmem l j).mpr ⟨hjn, hlowM⟩
      have hlkn : List.lookup l st.2 = none := by
        rw [lookup_eq_none_iff]
        intro hm
        rcases List.mem_map.mp hm with ⟨lk1, hlk1, hfst1⟩
        obtain ⟨hP1, hdn1⟩ := (hpiv lk1).mp hlk1
        have hP1' : (l, lk1.2) ∈ (standardReduce setRep D).2 := by
          rw [← hfst1]
          exact hP1
        have : lk1.2 = j := nodupKeys_eq _ hPkeys l lk1.2 j hP1' hljP
        rw [this] at hdn1
        exact hjd hdn1
      rw [twistStep_eq_of_new setRep D.length st j _ l hjc
        (by rw [setRep_low, hc']; exact hlowM) hlkn]
      have hlltj : l < j :=
        hstdInv.bound j l ((lowS_some_iff _ l).mp hlowM).1
      have hMl : colAt (standardReduce setRep D).1 l = ∅ := hThmA (l, j) hljP
      have hlen1 : (st.1.set j (reduceSteps setRep st.2 st.1 D.length
          (colAt st.1 j))).length = D.length := by
        simpa using hlen
      refine ⟨by simpa using hlen, ?_, ?_, ?_⟩
      · intro k
        by_cases hkl : k = l
        · subst hkl
          rw [colAt_set_self _ k _ (by rw [hlen1]; omega)]
          rw [setRep_zero, hMl, if_pos]
          right
          simp
        · rw [colAt_set_ne _ l k _ hkl]
          by_cases hk : k = j
          · subst hk
            rw [colAt_set_self _ k _ (by rw [hlen]; omega), hc',
              if_pos (Or.inl (by simp))]
          · rw [colAt_set_ne _ j k _ hk, hcols k]
            by_cases hc1 : k ∈ done ∨ k ∈ st.2.map Prod.fst
            · rw [if_pos hc1, if_pos]
              rcases hc1 with hc1 | hc1
              · exact Or.inl (List.mem_append_left _ hc1)
              · right
                rw [List.map_cons]
                exact List.mem_cons_of_mem _ hc1
            · rw [if_neg hc1, if_neg]
              intro hc2
              apply hc1
              rcases hc2 with hc2 | hc2
              · rcases List.mem_append.mp hc2 with hc3 | hc3
                · exact Or.inl hc3
                · exact absurd (by simpa using hc3) hk
              · rw [List.map_cons] at hc2
                rcases List.mem_cons.mp hc2 with hc3 | hc3
                · exact absurd hc3 hkl
                · exact Or.inr hc3
      · rintro ⟨a, b⟩
        constructor
        · intro hm
          rcases List.mem_cons.mp hm with he | hm'
          · have ha : a = l := by
              injection he with h5 h6
            have hb : b = j := by
              injection he with h5 h6
            subst ha
            subst hb
            exact ⟨hljP, List.mem_append_right _ (by simp)⟩
          · obtain ⟨h2, h3⟩ := (hpiv (a, b)).mp hm'
            exact ⟨h2, List.mem_append_left _ h3⟩
        · rintro ⟨h2, h3⟩
          rcases List.mem_append.mp h3 with h4 | h4
          · exact List.mem_cons_of_mem _ ((hpiv (a, b)).mpr ⟨h2, h4⟩)
          · have hj2 : b = j := by simpa using h4
            subst hj2
            obtain ⟨_, hlow2⟩ := (hPmem a b).mp h2
            rw [hlowM] at hlow2
            injection hlow2 with h5
            rw [← h5]
            exact List.mem_cons_self _ _
      · rw [List.map_cons, List.nodup_cons]
        exact ⟨(lookup_eq_none_iff l st.2).mp hlkn, hkeys⟩

theorem colAt_ge (cols : List (Finset ℕ)) (k : ℕ) (h : cols.length ≤ k) :
    colAt cols k = ∅ := by
  unfold colAt
  rw [List.getElem?_eq_none h]
  rfl

/-- Running the Twist steps over the whole Twist order carries the
simulation invariant to the final state. -/
theorem twist_fold_inv (D : List (Finset ℕ)) (dims : ℕ → ℕ) (maxd : ℕ)
    (hw : ∀ k, ∀ i ∈ colAt D k, i < k) (hdims : dimsOK dims D)
    (hdd : ∀ t, xorSum (colAt D) (colAt D t) = ∅)
    (hmax : ∀ j, j < D.length → dims j ≤ maxd) :
    ∀ (suf pre : List ℕ), twistOrder dims maxd D.length = pre ++ suf →
      TwistInv D pre (pre.foldl (twistStep setRep D.length) (D, [])) →
      TwistInv D (twistOrder dims maxd D.length)
        ((twistOrder dims maxd D.length).foldl
          (twistStep setRep D.length) (D, [])) := by
  intro suf
  induction suf with
  | nil =>
    intro pre h hInv
    rw [List.append_nil] at h
    rw [h]
    exact hInv
  | cons j suf ih =>
    intro pre h hInv
    have hjo : j ∈ twistOrder dims maxd D.length := by
      rw [h]
      exact List.mem_append_right _ (List.mem_cons_self j suf)
    have hjn : j < D.length := ((mem_twistOrder dims maxd D.length j).mp hjo).1
    have hpw := twistOrder_pairwise dims maxd D.length
    rw [h, List.pairwise_append] at hpw
    obtain ⟨hpw1, hpw2, hpw3⟩ := hpw
    have hdone : ∀ k, k ∈ pre ↔ (k < D.length ∧ precDim dims k j) := by
      intro k
      constructor
      · intro hk
        have hko : k ∈ twistOrder dims maxd D.length := by
          rw [h]
          exact List.mem_append_left _ hk
        refine ⟨((mem_twistOrder dims maxd D.length k).mp hko).1, ?_⟩
        exact hpw3 k hk j (List.mem_cons_self j suf)
      · rintro ⟨hk1, hk2⟩
        have hko : k ∈ twistOrder dims maxd D.length :=
          (mem_twistOrder dims maxd D.length k).mpr ⟨hk1, hmax k hk1⟩
        rw [h] at hko
        rcases List.mem_append.mp hko with h1 | h1
        · exact h1
        · rcases List.mem_cons.mp h1 with h2 | h2
          · exfalso
            rw [h2] at hk2
            exact precDim_irrefl dims j hk2
          · exfalso
            have := (List.pairwise_cons.mp hpw2).1 k h2
            exact precDim_asymm dims k j hk2 this
    have hstep := twistStep_inv D dims hw hdims hdd pre j _ hInv hjn hdone
    have hfold : (pre ++ [j]).foldl (twistStep setRep D.length) (D, []) =
        twistStep setRep D.length (pre.foldl (twistStep setRep D.length)
          (D, [])) j := by
      rw [List.foldl_append]
      rfl
    apply ih (pre ++ [j])
    · rw [h, List.append_assoc]
      rfl
    · rw [hfold]
      exact hstep

/-- C2: on a well-formed filtration (row bounds, dimension discipline, zero
boundary-of-boundary), the Twist optimization computes the same reduced
columns as Standard Reduction, the identical pivot map (as a set of
entries), and the same set of persistence pairs. -/
theorem spec_C2_twist_agreement (cols : List (Finset ℕ)) (dims : ℕ → ℕ)
    (maxd : ℕ) (hw : wfSet cols)
    (hdims : ∀ k, k < cols.length → ∀ i ∈ colAt cols k, dims i + 1 = dims k)
    (hdd : ∀ t, t < cols.length → xorSum (colAt cols) (colAt cols t) = ∅)
    (hmax : ∀ j, j < cols.length → dims j ≤ maxd) :
    (twistReduce setRep dims maxd cols).1 = (standardReduce setRep cols).1 ∧
    (∀ lk : ℕ × ℕ, lk ∈ (twistReduce setRep dims maxd cols).2 ↔
      lk ∈ (standardReduce setRep cols).2) ∧
    (∀ p, p ∈ extractPairs setRep dims (twistReduce setRep dims maxd cols).1
        (twistReduce setRep dims maxd cols).2 ↔
      p ∈ extractPairs setRep dims (standardReduce setRep cols).1
        (standardReduce setRep cols).2) := by
  have hw' : ∀ k, ∀ i ∈ colAt cols k, i < k := wfSet_colAt cols hw
  have hdims' : dimsOK dims cols := by
    intro k i hi
    by_cases hk : k < cols.length
    · exact hdims k hk i hi
    · rw [colAt_ge cols k (by omega)] at hi
      exact absurd hi (Finset.not_mem_empty i)
  have hdd' : ∀ t, xorSum (colAt cols) (colAt cols t) = ∅ := by
    intro t
    by_cases ht : t < cols.length
    · exact hdd t ht
    · rw [colAt_ge cols t (by omega), xorSum_empty]
  have hbase : TwistInv cols [] (cols, []) := by
    refine ⟨rfl, ?_, ?_, List.nodup_nil⟩
    · intro k
      rw [if_neg]
      intro h1
      rcases h1 with h1 | h1
      · cases h1
      · cases h1
    · intro lk
      simp
  have hfin : TwistInv cols (twistOrder dims maxd cols.length)
      (twistReduce setRep dims maxd cols) :=
    twist_fold_inv cols dims maxd hw' hdims' hdd' hmax
      (twistOrder dims maxd cols.length) [] rfl hbase
  obtain ⟨hlen, hcols, hpiv, _⟩ := hfin
  have hstdInv := standardReduce_inv cols hw'
  have hMlen : (standardReduce setRep cols).1.length = cols.length :=
    hstdInv.len
  have hpiveq : ∀ lk : ℕ × ℕ, lk ∈ (twistReduce setRep dims maxd cols).2 ↔
      lk ∈ (standardReduce setRep cols).2 := by
    intro lk
    rw [hpiv lk]
    constructor
    · rintro ⟨h1, _⟩
      exact h1
    · intro h1
      refine ⟨h1, ?_⟩
      obtain ⟨h2, _⟩ := hstdInv.pcols lk h1
      exact (mem_twistOrder dims maxd cols.length lk.2).mpr ⟨h2, hmax lk.2 h2⟩
  have hcolseq : (twistReduce setRep dims maxd cols).1 =
      (standardReduce setRep cols).1 := by
    apply List.ext_getElem?
    intro k
    by_cases hk : k < cols.length
    · have h1 : (twistReduce setRep dims maxd cols).1[k]? =
          some (colAt (twistReduce setRep dims maxd cols).1 k) :=
        colAt_of_lt _ _ (by rw [hlen]; omega)
      have h2 : (standardReduce setRep cols).1[k]? =
          some (colAt (standardReduce setRep cols).1 k) :=
        colAt_of_lt _ _ (by rw [hMlen]; omega)
      rw [h1, h2, hcols k, if_pos]
      left
      exact (mem_twistOrder dims maxd cols.length k).mpr ⟨hk, hmax k hk⟩
    · rw [List.getElem?_eq_none (by rw [hlen]; omega),
        List.getElem?_eq_none (by rw [hMlen]; omega)]
  refine ⟨hcolseq, hpiveq, ?_⟩
  intro p
  rw [mem_extractPairs, mem_extractPairs, hcolseq]
  have hkeyseq : ∀ i, i ∈ (twistReduce setRep dims maxd cols).2.map Prod.fst ↔
      i ∈ (standardReduce setRep cols).2.map Prod.fst := by
    intro i
    constructor
    · intro h1
      rcases List.mem_map.mp h1 with ⟨lk, hlk, hfst⟩
      exact hfst ▸ List.mem_map_of_mem Prod.fst ((hpiveq lk).mp hlk)
    · intro h1
      rcases List.mem_map.mp h1 with ⟨lk, hlk, hfst⟩
      exact hfst ▸ List.mem_map_of_mem Prod.fst ((hpiveq lk).mpr hlk)
  constructor
  · rintro (⟨lk, hlk, he⟩ | ⟨i, hi, hc, hk, he⟩)
    · exact Or.inl ⟨lk, (hpiveq lk).mp hlk, he⟩
    · exact Or.inr ⟨i, hi, hc, fun hm => hk ((hkeyseq i).mpr hm), he⟩
  · rintro (⟨lk, hlk, he⟩ | ⟨i, hi, hc, hk, he⟩)
    · exact Or.inl ⟨lk, (hpiveq lk).mpr hlk, he⟩
    · exact Or.inr ⟨i, hi, hc, fun hm => hk ((hkeyseq i).mp hm), he⟩

/-- The filled-triangle filtration over the set representation. -/
def triMatS : List (Finset ℕ) := triMat.map List.toFinset

/-- Closed witness for C2 at the filled-triangle filtration. -/
theorem spec_C2_twist_agreement_witness :
    wfSet triMatS ∧
    (∀ k, k < triMatS.length → ∀ i ∈ colAt triMatS k,
      triDims i + 1 = triDims k) ∧
    (∀ t, t < triMatS.length →
      xorSum (colAt triMatS) (colAt triMatS t) = ∅) ∧
    (∀ j, j < triMatS.length → triDims j ≤ 2) ∧
    ((twistReduce setRep triDims 2 triMatS).1 =
        (standardReduce setRep triMatS).1 ∧
      (∀ lk : ℕ × ℕ, lk ∈ (twistReduce setRep triDims 2 triMatS).2 ↔
        lk ∈ (standardReduce setRep triMatS).2) ∧
      (∀ p, p ∈ extractPairs setRep triDims
          (twistReduce setRep triDims 2 triMatS).1
          (twistReduce setRep triDims 2 triMatS).2 ↔
        p ∈ extractPairs setRep triDims (standardReduce setRep triMatS).1
          (standardReduce setRep triMatS).2)) :=
  ⟨by decide, by decide, by decide, by decide,
    spec_C2_twist_agreement triMatS triDims 2 (by decide) (by decide)
      (by decide) (by decide)⟩

end Aleph

namespace Containers

/-- A point container as used by the dimensionality estimators: a size, an
ambient dimension, and indexed point access. -/
structure PointContainer (P : Type) where
  size : ℕ
  dim : ℕ
  pt : ℕ → P

/-- The complete weighted graph the MST estimator builds: one edge per pair
`i < j`, weighted by the supplied distance over the container's ambient
dimension (the loops of `estimateLocalDimensionalityNearestNeighbours`,
MST overload, in `DimensionalityEstimators.hh`). -/
def completeGraphEdges {P W : Type} (container : PointContainer P)
    (distance : P → P → ℕ → W) : List (ℕ × ℕ × W) :=
  (List.range container.size).flatMap (fun i =>
    ((List.range container.size).filter (fun j => i < j)).map (fun j =>
      (i, j, distance (container.pt i) (container.pt j) container.dim)))

/-- Component label of a vertex in the union-find structure backing Kruskal's
algorithm. -/
def findLbl (lbl : List ℕ) (i : ℕ) : ℕ := lbl.getD i i

/-- Merging two components in the union-find structure. -/
def unite (lbl : List ℕ) (a b : ℕ) : List ℕ :=
  lbl.map (fun x => if x = a then b else x)

/-- Kruskal's minimum-spanning-tree computation
(`boost::kruskal_minimum_spanning_tree`): edges in ascending weight order,
greedily kept when they join distinct components. -/
def kruskalMST {W : Type} [LinearOrder W] (n : ℕ)
    (edges : List (ℕ × ℕ × W)) : List (ℕ × ℕ × W) :=
  let sorted := edges.mergeSort (fun e f => decide (e.2.2 ≤ f.2.2))
  (sorted.foldl (fun st e =>
    let a := findLbl st.1 e.1
    let b := findLbl st.1 e.2.1
    if a = b then st else (unite st.1 a b, e :: st.2))
    (List.range n, [])).2.reverse

/-- The unweighted MST graph rebuilt from the MST edge list. -/
def buildAdjacency {W : Type} (es : List (ℕ × ℕ × W)) : List (ℕ × ℕ) :=
  es.map (fun e => (e.1, e.2.1))

/-- The minimum-spanning-tree overload of
`estimateLocalDimensionalityNearestNeighbours`
(`DimensionalityEstimators.hh`, the two-template-parameter
Distance/Container overload): builds the complete weighted graph, computes
its minimum spanning tree, rebuilds the MST graph, iterates over its
vertices with an empty loop body, and returns the empty estimate vector. -/
def estimateLocalDimensionalityNearestNeighbours {P W : Type} [LinearOrder W]
    (container : PointContainer P) (distance : P → P → ℕ → W) : List W :=
  let edges := completeGraphEdges container distance
  let mstEdges := kruskalMST container.size edges
  let mst := buildAdjacency mstEdges
  (List.range mst.length).foldl (fun acc _ => acc) ([] : List W)

theorem foldl_const_acc {β : Type} (l : List ℕ) (acc : List β) :
    l.foldl (fun a _ => a) acc = acc := by
  induction l generalizing acc with
  | nil => rfl
  | cons x xs ih =>
    rw [List.foldl_cons]
    exact ih acc

/-- C10: the MST overload of `estimateLocalDimensionalityNearestNeighbours`
returns an empty vector for every input container and distance: it builds
the complete graph and its MST but never collects a single per-point
estimate. -/
theorem spec_C10_mst_estimator_empty {P W : Type} [LinearOrder W]
    (container : PointContainer P) (distance : P → P → ℕ → W) :
    estimateLocalDimensionalityNearestNeighbours container distance = [] := by
  unfold estimateLocalDimensionalityNearestNeighbours
  exact foldl_const_acc _ _

end Containers
